import Mathlib

/-!
Verification of the interactive MCP client engines of this repository:
the command/argument parser (`parse_command`), the natural-language
translator adapter (`SequentialThinker.generate_tool_call`), the
multi-step execution driver of the gcloud client, the iterative
"thought"-sequence driver of the sequential-thinking client, and the
error classifier (`humanize_error`).

The Python sources are embedded shallowly: strings are Lean `String`s,
Python exceptions are `Except`/`Option` values, `dict`s are ordered
association lists with in-place update (Python insertion-order
semantics).  `json.loads`/`json.dumps` are modelled by a small JSON
decoder/encoder in which numerals are integer literals (the claims
exercise only integer numerals; float semantics are outside the model).
-/

namespace MCP

/-- Does `sub` occur as a prefix of some suffix of `l`? -/
def listContainsSub (sub : List Char) : List Char → Bool
  | [] => sub.isEmpty
  | c :: tl => sub.isPrefixOf (c :: tl) || listContainsSub sub tl

/-- Python's `sub in s` substring test, on ASCII strings. -/
def containsSubstr (s sub : String) : Bool :=
  listContainsSub sub.toList s.toList

/-- ASCII decimal digit test. -/
def isDigitChar (c : Char) : Bool :=
  48 ≤ c.toNat && c.toNat ≤ 57

/-- Python `str.isdigit()` for ASCII strings: nonempty and all digits. -/
def isPyDigit (s : String) : Bool :=
  !s.toList.isEmpty && s.toList.all isDigitChar

/-- Digit character to its value. -/
def digitVal (c : Char) : Nat := c.toNat - '0'.toNat

/-- Python `int(s)` on an all-digit string. -/
def strToNat (s : String) : Nat :=
  s.toList.foldl (fun acc c => acc * 10 + digitVal c) 0

/-- Decimal digits of `n`, most significant first (`n = 0` gives `['0']`). -/
def natDigits (n : Nat) : List Char :=
  let rec go (fuel : Nat) (n : Nat) (acc : List Char) : List Char :=
    match fuel with
    | 0 => acc
    | fuel + 1 =>
      let d := Char.ofNat (n % 10 + '0'.toNat)
      if n < 10 then d :: acc else go fuel (n / 10) (d :: acc)
  go (n + 1) n []

/-- Decimal rendering of a natural number. -/
def natRepr (n : Nat) : String := String.mk (natDigits n)

/-- Decimal digits of an integer (minus sign for negatives). -/
def intReprChars (i : Int) : List Char :=
  if i < 0 then '-' :: natDigits i.natAbs else natDigits i.natAbs

/-- Decimal rendering of an integer. -/
def intRepr (i : Int) : String := String.mk (intReprChars i)

/-- Python `str.lower()` on ASCII strings. -/
def pyLower (s : String) : String :=
  String.mk (s.toList.map Char.toLower)

/-- Characters Python `str.strip()` removes (ASCII whitespace). -/
def isStripChar (c : Char) : Bool :=
  c = ' ' || c = '\t' || c = '\n' || c = '\r' || c = '\x0b' || c = '\x0c'

/-- Python `str.strip()`. -/
def pyStrip (s : String) : String :=
  String.mk ((s.toList.dropWhile isStripChar).reverse.dropWhile isStripChar |>.reverse)

/-- Python `s.startswith(pre)`. -/
def pyStartsWith (s pre : String) : Bool :=
  pre.toList.isPrefixOf s.toList

/-- Python `s.endswith(suf)`. -/
def pyEndsWith (s suf : String) : Bool :=
  suf.toList.reverse.isPrefixOf s.toList.reverse

/-- Python `s.replace("'", '"')`: every single quote becomes a double quote. -/
def replaceSingleQuotes (s : String) : String :=
  String.mk (s.toList.map (fun c => if c = '\'' then '"' else c))

/-- JSON values as produced by `json.loads`, with numerals restricted to
integer literals (the repository's commands only use integer numerals).
Arrays and objects are encoded first-order as cons-chains
(`arrCons x (arrCons y arrNil)` is the Python list `[x, y]`,
`objCons k v objNil` the dict `{k: v}`), so that every recursion over a
value is structural. -/
inductive Jval where
  | null : Jval
  | bool (b : Bool) : Jval
  | num (n : Int) : Jval
  | str (s : String) : Jval
  | arrNil : Jval
  | arrCons (hd tl : Jval) : Jval
  | objNil : Jval
  | objCons (k : String) (v tl : Jval) : Jval
  deriving DecidableEq

/-- Escape string characters for JSON output. -/
def dumpsStrChars : List Char → List Char
  | [] => []
  | c :: tl =>
    if c = '"' then '\\' :: '"' :: dumpsStrChars tl
    else if c = '\\' then '\\' :: '\\' :: dumpsStrChars tl
    else c :: dumpsStrChars tl

/-- A JSON string literal with its quotes. -/
def dumpsStrLit (s : String) : List Char :=
  '"' :: dumpsStrChars s.toList ++ ['"']

/-- Rendering mode for `Jval.dumpsChars`: a full value, or the tail of
an array/object cons-chain (rendered as `,`-prefixed continuation
items). -/
inductive DMode where
  | top : DMode
  | tailA : DMode
  | tailO : DMode

/-- Compact JSON rendering of a value (`json.dumps` with no extra
whitespace: the claims never inspect `json.dumps`'s default `", "`/`": "`
separators).  Cons-chains whose tails are not chains of the same kind do
not arise from the decoder; they render as if the chain ended there. -/
def Jval.dumpsChars : Jval → DMode → List Char
  | .null, _ => ['n', 'u', 'l', 'l']
  | .bool true, _ => ['t', 'r', 'u', 'e']
  | .bool false, _ => ['f', 'a', 'l', 's', 'e']
  | .num n, _ => intReprChars n
  | .str s, _ => dumpsStrLit s
  | .arrNil, .tailA => []
  | .arrNil, _ => ['[', ']']
  | .arrCons hd tl, .tailA => ',' :: (hd.dumpsChars .top ++ tl.dumpsChars .tailA)
  | .arrCons hd tl, _ => '[' :: (hd.dumpsChars .top ++ tl.dumpsChars .tailA) ++ [']']
  | .objNil, .tailO => []
  | .objNil, _ => ['\x7b', '\x7d']
  | .objCons k v tl, .tailO =>
    ',' :: (dumpsStrLit k ++ ':' :: v.dumpsChars .top ++ tl.dumpsChars .tailO)
  | .objCons k v tl, _ =>
    '\x7b' :: (dumpsStrLit k ++ ':' :: v.dumpsChars .top ++ tl.dumpsChars .tailO) ++ ['\x7d']

/-- `json.dumps` of a value. -/
def Jval.dumps (j : Jval) : String := String.mk (j.dumpsChars .top)

/-- JSON insignificant whitespace. -/
def isJsonWs (c : Char) : Bool :=
  c = ' ' || c = '\t' || c = '\n' || c = '\r'

/-- Drop leading JSON whitespace. -/
def skipWs : List Char → List Char
  | [] => []
  | c :: tl => if isJsonWs c then skipWs tl else c :: tl

/-- One hexadecimal digit, by code point: `0`-`9`, `a`-`f`, `A`-`F`. -/
def hexVal (c : Char) : Option Nat :=
  let n := c.toNat
  if 48 ≤ n && n ≤ 57 then some (n - 48)
  else if 97 ≤ n && n ≤ 102 then some (n - 87)
  else if 65 ≤ n && n ≤ 70 then some (n - 55)
  else none

/-- Scan the body of a JSON string literal (after the opening quote),
returning the decoded characters and the input after the closing quote. -/
def scanJsonStr (fuel : Nat) (cs : List Char) : Option (List Char × List Char) :=
  match fuel, cs with
  | 0, _ => none
  | _, [] => none
  | fuel + 1, c :: tl =>
    if c = '"' then some ([], tl)
    else if c = '\\' then
      match tl with
      | [] => none
      | e :: tl' =>
        let dec : Option (Char × List Char) :=
          if e = '"' then some ('"', tl')
          else if e = '\\' then some ('\\', tl')
          else if e = '/' then some ('/', tl')
          else if e = 'b' then some ('\x08', tl')
          else if e = 'f' then some ('\x0c', tl')
          else if e = 'n' then some ('\n', tl')
          else if e = 'r' then some ('\r', tl')
          else if e = 't' then some ('\t', tl')
          else if e = 'u' then
            match tl' with
            | h1 :: h2 :: h3 :: h4 :: tl'' =>
              match hexVal h1, hexVal h2, hexVal h3, hexVal h4 with
              | some a, some b, some c', some d =>
                some (Char.ofNat (((a * 16 + b) * 16 + c') * 16 + d), tl'')
              | _, _, _, _ => none
            | _ => none
          else none
        match dec with
        | some (ch, rest) =>
          match scanJsonStr fuel rest with
          | some (body, rest') => some (ch :: body, rest')
          | none => none
        | none => none
    else if c.toNat < 32 then none
    else
      match scanJsonStr fuel tl with
      | some (body, rest') => some (c :: body, rest')
      | none => none

/-- Greedily read decimal digits. -/
def scanDigits : List Char → List Char × List Char
  | [] => ([], [])
  | c :: tl =>
    if isDigitChar c then
      let (ds, rest) := scanDigits tl
      (c :: ds, rest)
    else ([], c :: tl)

/-- Read a JSON integer literal (optional minus; `0` or a nonzero-leading
digit run).  A following `.`/`e`/`E` (a float literal) is a decode
failure in this model. -/
def scanJsonInt (cs : List Char) : Option (Int × List Char) :=
  let (neg, cs') : Bool × List Char :=
    match cs with
    | '-' :: tl => (true, tl)
    | _ => (false, cs)
  match cs' with
  | [] => none
  | c :: tl =>
    if !isDigitChar c then none
    else
      let (ds, rest) :=
        if c = '0' then ([c], tl)
        else
          let (more, rest) := scanDigits tl
          (c :: more, rest)
      match rest with
      | r :: _ =>
        if r = '.' || r = 'e' || r = 'E' then none
        else
          let n : Nat := strToNat (String.mk ds)
          some (if neg then -(n : Int) else (n : Int), rest)
      | [] =>
        let n : Nat := strToNat (String.mk ds)
        some (if neg then -(n : Int) else (n : Int), [])

mutual

/-- Parse one JSON value from the front of the input (whitespace first),
following the grammar `json.loads` accepts, with numerals restricted to
integers. -/
def parseJval (fuel : Nat) (cs : List Char) : Option (Jval × List Char) :=
  match fuel with
  | 0 => none
  | fuel + 1 =>
    match skipWs cs with
    | [] => none
    | c :: tl =>
      if c = 'n' then
        match tl with
        | 'u' :: 'l' :: 'l' :: rest => some (.null, rest)
        | _ => none
      else if c = 't' then
        match tl with
        | 'r' :: 'u' :: 'e' :: rest => some (.bool true, rest)
        | _ => none
      else if c = 'f' then
        match tl with
        | 'a' :: 'l' :: 's' :: 'e' :: rest => some (.bool false, rest)
        | _ => none
      else if c = '"' then
        match scanJsonStr fuel tl with
        | some (body, rest) => some (.str (String.mk body), rest)
        | none => none
      else if c = '[' then
        match skipWs tl with
        | ']' :: rest => some (.arrNil, rest)
        | tl' => parseArrItems fuel tl'
      else if c = '\x7b' then
        match skipWs tl with
        | '\x7d' :: rest => some (.objNil, rest)
        | tl' => parseObjItems fuel tl'
      else
        match scanJsonInt (c :: tl) with
        | some (n, rest) => some (.num n, rest)
        | none => none

/-- Parse `value (',' value)* ']'` — the items of a nonempty array,
returned as the `arrCons` chain. -/
def parseArrItems (fuel : Nat) (cs : List Char) : Option (Jval × List Char) :=
  match fuel with
  | 0 => none
  | fuel + 1 =>
    match parseJval fuel cs with
    | none => none
    | some (v, rest) =>
      match skipWs rest with
      | ',' :: rest' =>
        match parseArrItems fuel rest' with
        | some (spine, rest'') => some (.arrCons v spine, rest'')
        | none => none
      | ']' :: rest' => some (.arrCons v .arrNil, rest')
      | _ => none

/-- Parse `string ':' value (',' member)* '\x7d'` — the members of a
nonempty object, returned as the `objCons` chain. -/
def parseObjItems (fuel : Nat) (cs : List Char) : Option (Jval × List Char) :=
  match fuel with
  | 0 => none
  | fuel + 1 =>
    match skipWs cs with
    | '"' :: tl =>
      match scanJsonStr fuel tl with
      | none => none
      | some (key, rest) =>
        match skipWs rest with
        | ':' :: rest' =>
          match parseJval fuel rest' with
          | none => none
          | some (v, rest'') =>
            match skipWs rest'' with
            | ',' :: rest3 =>
              match parseObjItems fuel rest3 with
              | some (spine, rest4) => some (.objCons (String.mk key) v spine, rest4)
              | none => none
            | '\x7d' :: rest3 => some (.objCons (String.mk key) v .objNil, rest3)
            | _ => none
        | _ => none
    | _ => none

end

/-- `json.loads` on the modelled grammar: parse one value and require
only whitespace to remain. -/
def jsonDecode (s : String) : Option Jval :=
  match parseJval (s.length + 1) s.toList with
  | some (v, rest) => if (skipWs rest).isEmpty then some v else none
  | none => none

/-! ## `shlex.split` (POSIX mode, whitespace splitting) -/

/-- Characters `shlex` treats as token separators (`shlex.whitespace`). -/
def isShlexWs (c : Char) : Bool :=
  c = ' ' || c = '\t' || c = '\r' || c = '\n'

/-- Scanner state of `shlex.split` in POSIX mode: outside quotes, inside
single quotes, or inside double quotes. -/
inductive ShMode where
  | norm : ShMode
  | single : ShMode
  | double : ShMode

/-- Close the current token, if one is open, onto the reversed token list. -/
def shFlush (cur : Option (List Char)) (acc : List String) : List String :=
  match cur with
  | some t => String.mk t.reverse :: acc
  | none => acc

/-- The `shlex.split` scanner: `cur` is the reversed current token
(`none` when no token is open — POSIX quoting can open an empty token),
`acc` the reversed completed tokens.  Unbalanced quotes and a trailing
escape character are the two `ValueError`s, modelled as `Except.error`. -/
def shlexCore : List Char → ShMode → Option (List Char) → List String →
    Except Unit (List String)
  | [], .norm, cur, acc => .ok (shFlush cur acc).reverse
  | [], .single, _, _ => .error ()
  | [], .double, _, _ => .error ()
  | c :: tl, .norm, cur, acc =>
    if isShlexWs c then shlexCore tl .norm none (shFlush cur acc)
    else if c = '\'' then shlexCore tl .single (some (cur.getD [])) acc
    else if c = '"' then shlexCore tl .double (some (cur.getD [])) acc
    else if c = '\\' then
      match tl with
      | [] => .error ()
      | d :: tl' => shlexCore tl' .norm (some (d :: cur.getD [])) acc
    else shlexCore tl .norm (some (c :: cur.getD [])) acc
  | c :: tl, .single, cur, acc =>
    if c = '\'' then shlexCore tl .norm cur acc
    else shlexCore tl .single (some (c :: cur.getD [])) acc
  | c :: tl, .double, cur, acc =>
    if c = '"' then shlexCore tl .norm cur acc
    else if c = '\\' then
      match tl with
      | [] => .error ()
      | d :: tl' =>
        if d = '"' || d = '\\' then
          shlexCore tl' .double (some (d :: cur.getD [])) acc
        else shlexCore tl' .double (some (d :: '\\' :: cur.getD [])) acc
    else shlexCore tl .double (some (c :: cur.getD [])) acc

/-- `shlex.split(s)`: POSIX tokenization; raises (models `ValueError`)
on an unbalanced quote or a trailing escape. -/
def shlexSplit (s : String) : Except Unit (List String) :=
  shlexCore s.toList .norm none []

/-! ## `parse_command` -/

/-- The dynamically typed argument values `parse_command` produces:
Python `bool`, `int`, `str`, or the result of a `json.loads`. -/
inductive Value where
  | bool (b : Bool) : Value
  | int (n : Nat) : Value
  | str (s : String) : Value
  | json (j : Jval) : Value

/-- Python `dict` assignment `d[k] = v` on an insertion-ordered
association list: overwrite in place if the key exists, else append. -/
def dictInsert (d : List (String × Value)) (k : String) (v : Value) :
    List (String × Value) :=
  match d with
  | [] => [(k, v)]
  | (k', v') :: tl =>
    if k' = k then (k', v) :: tl else (k', v') :: dictInsert tl k v

/-- Split an argument token at its first `=` (Python `arg.split('=', 1)`),
or `none` when it has no `=` (the token is skipped). -/
def splitArgToken (arg : String) : Option (String × String) :=
  let cs := arg.toList
  let rec go (pre : List Char) : List Char → Option (String × String)
    | [] => none
    | c :: tl =>
      if c = '=' then some (String.mk pre.reverse, String.mk tl)
      else go (c :: pre) tl
  go [] cs

/-- The value-coercion chain of `parse_command`, transcribed from the
`try` block: `true`/`false` (case-insensitive) → bool, all-digit → int,
`[...]`/`{...}` → `json.loads` after replacing `'` with `"` (keeping the
raw string when decoding raises), else the raw string. -/
def coerceValue (v : String) : Value :=
  if pyLower v = "true" then .bool true
  else if pyLower v = "false" then .bool false
  else if isPyDigit v then .int (strToNat v)
  else if (pyStartsWith v "[" && pyEndsWith v "]")
        || (pyStartsWith v "\x7b" && pyEndsWith v "\x7d") then
    match jsonDecode (replaceSingleQuotes v) with
    | some j => .json j
    | none => .str v
  else .str v

/-- What `parse_command` returns, together with whether its
`except`-branch warning was printed (`⚠️ Error parsing command`).
`tool = none` with no warning is the empty-input return; `tool = none`
with the warning is the tokenization-failure return. -/
structure ParseOutcome where
  tool : Option String
  args : List (String × Value)
  warned : Bool

/-- `parse_command` from `sequentialthinking_interactive.py` (the
`filesystem_interactive.py` copy is textually identical): tokenize with
`shlex.split`, first token is the tool name, each later token containing
`=` contributes a coerced key/value, and any tokenization exception
yields `(None, {})` after printing a warning. -/
def parseCommand (cmdStr : String) : ParseOutcome :=
  match shlexSplit cmdStr with
  | .error _ => ⟨none, [], true⟩
  | .ok [] => ⟨none, [], false⟩
  | .ok (t :: rest) =>
    ⟨some t,
     rest.foldl (fun acc arg =>
       match splitArgToken arg with
       | some (k, v) => dictInsert acc k (coerceValue v)
       | none => acc) [],
     false⟩

/-- Modelled from the spec: the canonical string form of an argument
value, used for the re-serialization step of the parse/serialize
round-trip property (the repository itself never re-serializes a parsed
command, so this definition follows the spec's value types: booleans as
`true`/`false`, integers in decimal, strings verbatim, structured values
as compact JSON). -/
def serializeValue : Value → String
  | .bool true => "true"
  | .bool false => "false"
  | .int n => natRepr n
  | .str s => s
  | .json j => j.dumps

/-- Single-space join of token character lists. -/
def joinChars : List (List Char) → List Char
  | [] => []
  | [t] => t
  | t :: ts => t ++ ' ' :: joinChars ts

/-- Modelled from the spec: the canonical string form of a parsed
`Command` — the tool name followed by space-separated `key=value`
tokens in argument order. -/
def serializeCommand (tool : String) (args : List (String × Value)) : String :=
  String.mk (joinChars (tool.toList ::
    args.map (fun kv => kv.1.toList ++ '=' :: (serializeValue kv.2).toList)))

/-- A character that survives `shlex` tokenization untouched: not a
token separator, not a quote, not the escape character. -/
def plainChar (c : Char) : Bool :=
  !isShlexWs c && c ≠ '\'' && c ≠ '"' && c ≠ '\\'

/-- A well-formed token for the round-trip property: nonempty and made
of plain characters only (the claim's "no quoting"). -/
def wfToken (t : String) : Bool :=
  !t.toList.isEmpty && t.toList.all plainChar

/-- A well-formed `key=value` token: well-formed and containing `=`. -/
def wfArgToken (t : String) : Bool :=
  wfToken t && t.toList.contains '='

/-- An argument entry as produced by parsing a well-formed plain token:
the key is plain and free of `=`, and the value is the coercion of some
plain raw string. -/
def goodEntry (kv : String × Value) : Prop :=
  kv.1.toList.all plainChar = true ∧ (∀ c ∈ kv.1.toList, c ≠ '=')
    ∧ ∃ v0 : String, v0.toList.all plainChar = true ∧ kv.2 = coerceValue v0

/-- Is the value an array chain constructor? -/
def isArrSpineB : Jval → Bool
  | .arrNil => true
  | .arrCons _ _ => true
  | _ => false

/-- The input that may legally follow a rendered JSON number: end of
input, or a character that stops the digit scan (not a digit and not a
float continuation). -/
def delimOk : List Char → Prop
  | [] => True
  | c :: _ => isDigitChar c = false ∧ c ≠ '.' ∧ c ≠ 'e' ∧ c ≠ 'E'

/-- JSON values reachable by decoding a quote-free string: no string
literals, no object members, and array chains that are proper spines. -/
def jgood : Jval → Bool
  | .null => true
  | .bool _ => true
  | .num _ => true
  | .str _ => false
  | .arrNil => true
  | .arrCons hd tl => jgood hd && isArrSpineB tl && jgood tl
  | .objNil => true
  | .objCons _ _ _ => false

/-! ## The gcloud client: `humanize_error` and the drivers -/

/-- The classification branches of `humanize_error` in
`gcloud_mcp_interactive.py`, one constructor per `return`. -/
inductive ErrorClass where
  | machineTypeRunning : ErrorClass
  | missingZone : ErrorClass
  | missingRegion : ErrorClass
  | missingProject : ErrorClass
  | notFound : ErrorClass
  | permissionDenied : ErrorClass
  | invalidValue (field : String) : ErrorClass
  | unclassified : ErrorClass
  deriving DecidableEq

/-- The capture of `re.search(r"Invalid value for \[([^\]]+)\]", t)`:
at the leftmost occurrence of the literal prefix that is followed by at
least one non-`]` character and then `]`, the captured field. -/
def findInvalidValueField : List Char → Option String
  | [] => none
  | c :: tl =>
    let cs := c :: tl
    if "Invalid value for [".toList.isPrefixOf cs then
      let rest := cs.drop "Invalid value for [".length
      let field := rest.takeWhile (· ≠ ']')
      let rest' := rest.dropWhile (· ≠ ']')
      if !field.isEmpty && !rest'.isEmpty then some (String.mk field)
      else findInvalidValueField tl
    else findInvalidValueField tl

/-- `humanize_error`, transcribed branch by branch (each branch returns a
fixed message; we record which branch fires). -/
def humanizeError (t : String) : ErrorClass :=
  if containsSubstr t "set-machine-type"
      && (containsSubstr (pyLower t) "not found" || containsSubstr (pyLower t) "cannot") then
    .machineTypeRunning
  else if containsSubstr t "Specify the [--zone] flag" || containsSubstr t "--zone" then
    .missingZone
  else if containsSubstr t "Specify the [--region] flag" || containsSubstr t "--region" then
    .missingRegion
  else if containsSubstr t "Specify the [--project] flag" || containsSubstr t "--project" then
    .missingProject
  else if containsSubstr t "was not found" || containsSubstr t "Could not fetch resource" then
    .notFound
  else if containsSubstr t "PERMISSION_DENIED" || containsSubstr t "does not have permission" then
    .permissionDenied
  else
    match findInvalidValueField t.toList with
    | some field => .invalidValue field
    | none => .unclassified

/-- A content item of a tool-call result (`result.content`). -/
inductive Content where
  | text (s : String) : Content
  | other (tag : String) : Content

/-- The outcome of one remote call attempt: the call raised, or returned
content items. -/
inductive ExecResult where
  | raised : ExecResult
  | ok (content : List Content) : ExecResult

/-- The first text item whose text contains the literal `"ERROR:"`
marker — the condition both gcloud execution paths use to treat a
returned (non-raising) result as a failure. -/
def firstErrorText : List Content → Option String
  | [] => none
  | .text s :: tl => if containsSubstr s "ERROR:" then some s else firstErrorText tl
  | .other _ :: tl => firstErrorText tl

/-- Outcome of the single-call path (lines 318–337): a raised call is
caught; a returned result is a failure iff some text item contains
`"ERROR:"`, in which case it is classified by `humanize_error`. -/
structure CallOutcome where
  success : Bool
  classified : Option ErrorClass

/-- The single-call execution path of `run_interactive_session` in
`gcloud_mcp_interactive.py`. -/
def singleCall (res : ExecResult) : CallOutcome :=
  match res with
  | .raised => ⟨false, none⟩
  | .ok content =>
    match firstErrorText content with
    | some t => ⟨false, some (humanizeError t)⟩
    | none => ⟨true, none⟩

/-- One executed step of a multi-step plan: 1-based index and whether it
succeeded. -/
structure StepOutcome where
  index : Nat
  success : Bool

/-- Report of a multi-step run: the outcomes in execution order, the
1-based index of the stopping failure (if any), and the plan length. -/
structure SeqReport where
  outcomes : List StepOutcome
  stoppedAt : Option Nat
  total : Nat

/-- Execute steps `i, i+1, …` (1-based) of a plan, `rem` steps
remaining: stop at the first step that raises or whose returned content
contains the `"ERROR:"` marker. -/
def runStepsFrom (exec : Nat → ExecResult) : Nat → Nat → List StepOutcome × Option Nat
  | _, 0 => ([], none)
  | i, rem + 1 =>
    match exec i with
    | .raised => ([⟨i, false⟩], some i)
    | .ok content =>
      match firstErrorText content with
      | some _ => ([⟨i, false⟩], some i)
      | none =>
        let (rest, stopped) := runStepsFrom exec (i + 1) rem
        (⟨i, true⟩ :: rest, stopped)

/-- The multi-step branch of `run_interactive_session` in
`gcloud_mcp_interactive.py` (lines 255–306): steps run in order, the
loop breaks at the first raised call or `"ERROR:"`-marked result, and
the stop is reported with the 1-based step index. -/
def runMultiStep (steps : List String) (exec : Nat → ExecResult) : SeqReport :=
  let (outs, st) := runStepsFrom exec 1 steps.length
  ⟨outs, st, steps.length⟩

/-! ## The sequential-thinking client: translator adapter and loop -/

/-- The configured translator: `none` models `self.chat is None`
(no genai library or no API key); `some f` models a chat whose
`send_message(prompt).text` is `f prompt`, with `Except.error` for a
raised invocation. -/
def Translator := Option (String → Except Unit String)

/-- Split a character list at its first occurrence of `sep`, when present. -/
def splitFirstAt (sep : Char) (cs : List Char) : Option (List Char × List Char) :=
  let pre := cs.takeWhile (· ≠ sep)
  if pre.length = cs.length then none
  else some (pre, cs.drop (pre.length + 1))

/-- The markdown fence cleanup inside `generate_tool_call`:
`split("\n", 1)[1]` raises `IndexError` (modelled `none`) when a
fenced-looking reply has no newline; `rsplit("\n", 1)[0]` keeps the part
before the last newline (the whole string when there is none). -/
def cleanupMarkdown (r : String) : Option String :=
  if pyStartsWith r "```" then
    match splitFirstAt '\n' r.toList with
    | none => none
    | some (_, after) =>
      let a := String.mk after
      if pyEndsWith a "```" then
        let lastSeg := after.reverse.takeWhile (· ≠ '\n')
        if lastSeg.length = after.length then some a
        else some (String.mk (after.take (after.length - lastSeg.length - 1)))
      else some a
  else some r

/-- `SequentialThinker.generate_tool_call`: pass-through when no chat is
configured; on a configured chat, strip and markdown-clean the reply,
returning the prompt unchanged (with the warning flag, modelling the
`⚠️ NLP Translation failed` print) when anything in the `try` block
raises. -/
def generateToolCall (tr : Translator) (prompt : String) : String × Bool :=
  match tr with
  | none => (prompt, false)
  | some f =>
    match f prompt with
    | .error _ => (prompt, true)
    | .ok text =>
      match cleanupMarkdown (pyStrip text) with
      | some r => (pyStrip r, false)
      | none => (prompt, true)

/-- Python truthiness of an argument value (`if needs_next`). -/
def pyTruthy : Value → Bool
  | .bool b => b
  | .int n => n ≠ 0
  | .str s => s ≠ ""
  | .json .null => false
  | .json (.bool b) => b
  | .json (.num n) => n ≠ 0
  | .json (.str s) => s ≠ ""
  | .json .arrNil => false
  | .json (.arrCons _ _) => true
  | .json .objNil => false
  | .json (.objCons _ _ _) => true

/-- A value viewed as a Python number, when it is one (`bool` is an
`int` subtype in Python). -/
def pyNum : Value → Option Int
  | .bool b => some (if b then 1 else 0)
  | .int n => some (n : Int)
  | _ => none

/-- Lexicographic comparison of character lists (Python `str < str`). -/
def listLexLt : List Char → List Char → Bool
  | [], [] => false
  | [], _ :: _ => true
  | _ :: _, [] => false
  | a :: as', b :: bs' =>
    if a = b then listLexLt as' bs'
    else decide (a < b)

/-- Python `<` on the argument values the driver compares: numbers with
numbers, strings with strings; other combinations raise `TypeError`
(modelled `none`).  (Python also orders lists element-wise; structured
values never reach this comparison in the claims, so they are modelled
as raising.) -/
def pyLt (a b : Value) : Option Bool :=
  match pyNum a, pyNum b with
  | some x, some y => some (decide (x < y))
  | _, _ =>
    match a, b with
    | .str s, .str t => some (listLexLt s.toList t.toList)
    | _, _ => none

/-- `tool_args.get(key, default)`. -/
def getArg (args : List (String × Value)) (key : String) (dflt : Value) : Value :=
  match args with
  | [] => dflt
  | (k, v) :: tl => if k = key then v else getArg tl key dflt

/-- The `last_thought_result` accumulation: the last text item whose
stripped text starts with `{` and whose full text `json.loads`
successfully, defaulting to the empty dict. -/
def lastThought (content : List Content) : Jval :=
  content.foldl (fun acc item =>
    match item with
    | .text s =>
      if pyStartsWith (pyStrip s) "\x7b" then
        match jsonDecode s with
        | some j => j
        | none => acc
      else acc
    | .other _ => acc) .objNil

/-- The follow-up prompt the driver feeds back to the translator
(`f"The previous tool executed successfully. Result: …"`). -/
def continuationPrompt (lastResult : Jval) (nextNum : Int) : String :=
  "The previous tool executed successfully. Result: " ++ lastResult.dumps ++
    ". Generate the next sequentialthinking tool call for thought number " ++
    intRepr nextNum ++ "."

/-- State of the inner execution loop of `run_interactive_session` in
`sequentialthinking_interactive.py`: the pending command string while
the loop is live, plus the trace of tool calls executed so far. -/
inductive SessState where
  | running (cmdStr : String) (trace : List (String × List (String × Value))) : SessState
  | halted (trace : List (String × List (String × Value))) : SessState

/-- The executed-call trace of a state. -/
def SessState.trace : SessState → List (String × List (String × Value))
  | .running _ t => t
  | .halted t => t

/-- Is the loop still live? -/
def SessState.isRunning : SessState → Bool
  | .running _ _ => true
  | .halted _ => false

/-- One pass of the `while True` execution loop (lines 169–231):
parse the command (substituting the `"tool_name"` placeholder), stop on
a parse failure, execute the call, and — when NLP is enabled and the
tool is `sequentialthinking` — continue with a fresh translation iff the
just-executed arguments request continuation and
`thoughtNumber < totalThoughts`; the `curr_thought + 1` addition and the
comparison can raise `TypeError` on non-numeric argument values, which
the surrounding `except` turns into a loop break. -/
def sessStep (tr : Translator) (server : String → List (String × Value) → ExecResult) :
    SessState → SessState
  | .halted t => .halted t
  | .running cmdStr t =>
    let p := parseCommand cmdStr
    let tool := if p.tool = some "tool_name" then some "sequentialthinking" else p.tool
    match tool with
    | none => .halted t
    | some name =>
      let t' := t ++ [(name, p.args)]
      match server name p.args with
      | .raised => .halted t'
      | .ok content =>
        if tr.isSome && name = "sequentialthinking" then
          let needsNext := pyTruthy (getArg p.args "nextThoughtNeeded" (.bool false))
          let curr := getArg p.args "thoughtNumber" (.int 0)
          let total := getArg p.args "totalThoughts" (.int 0)
          match pyLt curr total with
          | none => .halted t'
          | some lt =>
            if needsNext && lt then
              match pyNum curr with
              | none => .halted t'
              | some c =>
                let prompt := continuationPrompt (lastThought content) (c + 1)
                .running (generateToolCall tr prompt).1 t'
            else .halted t'
        else .halted t'

/-- Run the session loop on one user input: the initial translation
produces the first command string, then the loop iterates (`fuel` bounds
the unrolling — the Python loop itself has no bound). -/
def runSession (tr : Translator) (server : String → List (String × Value) → ExecResult)
    (fuel : Nat) (userInput : String) : SessState :=
  (sessStep tr server)^[fuel] (.running (generateToolCall tr userInput).1 [])

/-! ## Concrete fixtures used by the claims' scenarios -/

/-- The always-continuing step of the termination scenario:
`step_number=1, total_steps_estimate=3, continuation_requested=true`. -/
def contCmd : String :=
  "sequentialthinking thought=t thoughtNumber=1 totalThoughts=3 nextThoughtNeeded=true"

/-- A translator that returns the always-continuing step on every
prompt. -/
def trAlways : Translator := some (fun _ => .ok contCmd)

/-- A translator that returns every prompt unchanged (the identity
translator of the pass-through-equivalence scenario). -/
def trId : Translator := some (fun s => .ok s)

/-- A server whose calls always return successfully with no content. -/
def srvOk : String → List (String × Value) → ExecResult := fun _ _ => .ok []

/-- A user input that is already a `sequentialthinking` call requesting
one continuation. -/
def c7input : String :=
  "sequentialthinking thought=a thoughtNumber=1 totalThoughts=2 nextThoughtNeeded=true"

/-- The tool call `contCmd` parses to. -/
def contCall : String × List (String × Value) :=
  ("sequentialthinking",
   [("thought", .str "t"), ("thoughtNumber", .int 1),
    ("totalThoughts", .int 3), ("nextThoughtNeeded", .bool true)])

/-! ## Claims -/

/-- C4: for every `key=value` token, `parse_command` coerces the value
by trying, in order with first match winning: case-insensitive
`true`/`false` to boolean, all-digit string to integer, a `[...]`/`{...}`
string to a structured value after replacing single quotes with double
quotes (keeping the raw string if decoding fails), otherwise keeping the
string; and `parse('foo a=1 b=true c="x y" d=[1,2]')` yields tool `foo`
with `a` integer `1`, `b` boolean true, `c` string `"x y"`, and `d` the
list `[1,2]`. -/
theorem claim_C4_coercion_order :
    parseCommand "foo a=1 b=true c=\"x y\" d=[1,2]" =
      ⟨some "foo", [("a", .int 1), ("b", .bool true), ("c", .str "x y"),
        ("d", .json (.arrCons (.num 1) (.arrCons (.num 2) .arrNil)))], false⟩
    ∧ (∀ v : String, pyLower v = "true" → coerceValue v = .bool true)
    ∧ (∀ v : String, pyLower v ≠ "true" → pyLower v = "false" → coerceValue v = .bool false)
    ∧ (∀ v : String, pyLower v ≠ "true" → pyLower v ≠ "false" → isPyDigit v = true →
        coerceValue v = .int (strToNat v))
    ∧ (∀ v : String, pyLower v ≠ "true" → pyLower v ≠ "false" → isPyDigit v = false →
        ((pyStartsWith v "[" && pyEndsWith v "]")
          || (pyStartsWith v "\x7b" && pyEndsWith v "\x7d")) = true →
        ∀ j, jsonDecode (replaceSingleQuotes v) = some j → coerceValue v = .json j)
    ∧ (∀ v : String, pyLower v ≠ "true" → pyLower v ≠ "false" → isPyDigit v = false →
        jsonDecode (replaceSingleQuotes v) = none → coerceValue v = .str v)
    ∧ (∀ v : String, pyLower v ≠ "true" → pyLower v ≠ "false" → isPyDigit v = false →
        ((pyStartsWith v "[" && pyEndsWith v "]")
          || (pyStartsWith v "\x7b" && pyEndsWith v "\x7d")) = false →
        coerceValue v = .str v) := by
  refine ⟨rfl, ?_, ?_, ?_, ?_, ?_, ?_⟩
  · intro v h1
    simp [coerceValue, h1]
  · intro v h1 h2
    simp [coerceValue, h1, h2]
  · intro v h1 h2 h3
    simp [coerceValue, h1, h2, h3]
  · intro v h1 h2 h3 h4 j h5
    simp [coerceValue, h1, h2, h3, h4, h5]
  · intro v h1 h2 h3 h4
    by_cases h5 : ((pyStartsWith v "[" && pyEndsWith v "]")
        || (pyStartsWith v "\x7b" && pyEndsWith v "\x7d")) = true
    · simp [coerceValue, h1, h2, h3, h5, h4]
    · simp [coerceValue, h1, h2, h3, h5]
  · intro v h1 h2 h3 h4
    simp [coerceValue, h1, h2, h3, h4]

/-- Witness for C4 at concrete inputs of each coercion class. -/
theorem claim_C4_coercion_order_witness :
    coerceValue "TRUE" = .bool true ∧ coerceValue "007" = .int 7 ∧
      coerceValue "[oops]" = .str "[oops]" := by
  refine ⟨claim_C4_coercion_order.2.1 "TRUE" rfl, ?_, ?_⟩
  · exact claim_C4_coercion_order.2.2.2.1 "007" (by decide) (by decide) rfl
  · exact claim_C4_coercion_order.2.2.2.2.2.1 "[oops]" (by decide) (by decide) rfl rfl

/-- C6: `parse('')` (and any input producing no tokens) fails with the
empty-command return, unbalanced quotes fail with the tokenization
failure (the warning-printing branch), and neither failure yields a
command: the tool is `none` exactly when tokenization raised or produced
no tokens. -/
theorem claim_C6_failure_modes :
    parseCommand "" = ⟨none, [], false⟩
    ∧ parseCommand "foo \"bar" = ⟨none, [], true⟩
    ∧ (∀ s e, shlexSplit s = .error e → parseCommand s = ⟨none, [], true⟩)
    ∧ (∀ s, (parseCommand s).tool = none ↔
        (shlexSplit s = .error () ∨ shlexSplit s = .ok []))
    ∧ (∀ s, (parseCommand s).tool = none → (parseCommand s).args = []) := by
  refine ⟨rfl, rfl, ?_, ?_, ?_⟩
  · intro s e h
    simp [parseCommand, h]
  · intro s
    rcases h : shlexSplit s with e | ts
    · cases e
      simp [parseCommand, h]
    · cases ts <;> simp [parseCommand, h]
  · intro s
    rcases h : shlexSplit s with e | ts
    · simp [parseCommand, h]
    · cases ts <;> simp [parseCommand, h]

/-- Witness for C6 at the unbalanced-quote input. -/
theorem claim_C6_failure_modes_witness :
    parseCommand "foo \"unbalanced" = ⟨none, [], true⟩ :=
  claim_C6_failure_modes.2.2.1 "foo \"unbalanced" () rfl

/-- C9: `parse_command` is total — every input returns either a tool
with arguments (no warning) or the `(None, {})` pair; a tokenization
exception is caught and mapped to `(None, {})` with the warning, and a
failed structured decode leaves the argument's value as the raw
string. -/
theorem claim_C9_parse_total :
    (∀ s, (∃ t args, parseCommand s = ⟨some t, args, false⟩)
      ∨ parseCommand s = ⟨none, [], false⟩ ∨ parseCommand s = ⟨none, [], true⟩)
    ∧ (∀ s e, shlexSplit s = .error e → parseCommand s = ⟨none, [], true⟩)
    ∧ (∀ v : String, pyLower v ≠ "true" → pyLower v ≠ "false" → isPyDigit v = false →
        jsonDecode (replaceSingleQuotes v) = none → coerceValue v = .str v) := by
  refine ⟨?_, ?_, ?_⟩
  · intro s
    rcases h : shlexSplit s with e | ts
    · right; right; simp [parseCommand, h]
    · cases ts with
      | nil => right; left; simp [parseCommand, h]
      | cons t rest =>
        left
        have hp : parseCommand s = ⟨some t,
            rest.foldl (fun acc arg =>
              match splitArgToken arg with
              | some (k, v) => dictInsert acc k (coerceValue v)
              | none => acc) [], false⟩ := by
          simp [parseCommand, h]
        exact ⟨t, _, hp⟩
  · intro s e h
    simp [parseCommand, h]
  · intro v h1 h2 h3 h4
    by_cases h5 : ((pyStartsWith v "[" && pyEndsWith v "]")
        || (pyStartsWith v "\x7b" && pyEndsWith v "\x7d")) = true
    · simp [coerceValue, h1, h2, h3, h5, h4]
    · simp [coerceValue, h1, h2, h3, h5]

/-- Witness for C9: the bad-quote input and a bracketed value whose
decode fails. -/
theorem claim_C9_parse_total_witness :
    parseCommand "a \"b" = ⟨none, [], true⟩ ∧ coerceValue "[x]" = .str "[x]" :=
  ⟨claim_C9_parse_total.2.1 "a \"b" () rfl,
   claim_C9_parse_total.2.2 "[x]" (by decide) (by decide) rfl rfl⟩

/-- C10: when the parsed tool name is the literal placeholder
`"tool_name"`, the driver substitutes `"sequentialthinking"` before
execution — the executed call (for any translator and server) is against
the `sequentialthinking` tool with the parsed arguments. -/
theorem claim_C10_placeholder_substitution :
    ∀ (cmdStr : String) (args : List (String × Value)) (w : Bool)
      (tr : Translator) (server : String → List (String × Value) → ExecResult)
      (trace : List (String × List (String × Value))),
      parseCommand cmdStr = ⟨some "tool_name", args, w⟩ →
      (sessStep tr server (.running cmdStr trace)).trace =
        trace ++ [("sequentialthinking", args)] := by
  intro cmdStr args w tr server trace h
  rcases hsv : server "sequentialthinking" args with _ | content
  · simp [sessStep, h, hsv, SessState.trace]
  · rcases htr : tr with _ | f
    · simp [sessStep, h, hsv, htr, SessState.trace]
    · rcases hlt : pyLt (getArg args "thoughtNumber" (.int 0))
          (getArg args "totalThoughts" (.int 0)) with _ | lt
      · simp [sessStep, h, hsv, htr, hlt, SessState.trace]
      · rcases hpn : pyNum (getArg args "thoughtNumber" (.int 0)) with _ | c <;>
        by_cases hd :
            (pyTruthy (getArg args "nextThoughtNeeded" (.bool false)) && lt) = true <;>
        simp [sessStep, h, hsv, htr, hlt, hpn, hd, SessState.trace]

/-- Witness for C10: a command whose tool token is the placeholder is
executed as `sequentialthinking`. -/
theorem claim_C10_placeholder_substitution_witness :
    (sessStep none srvOk (.running "tool_name thought=x" [])).trace =
      [("sequentialthinking", [("thought", .str "x")])] :=
  claim_C10_placeholder_substitution "tool_name thought=x"
    [("thought", .str "x")] false none srvOk [] rfl

/-- C5 counterexample: a result whose text contains
`"ERROR: permission denied"` is *not* classified `PermissionDenied` —
`humanize_error` matches only `"PERMISSION_DENIED"` or
`"does not have permission"` (case-sensitively), so this text falls
through to the default branch. -/
theorem claim_C5_counterexample :
    humanizeError "ERROR: permission denied" = .unclassified
    ∧ singleCall (.ok [.text "ERROR: permission denied"]) = ⟨false, some .unclassified⟩
    ∧ ErrorClass.unclassified ≠ ErrorClass.permissionDenied :=
  ⟨rfl, rfl, by decide⟩

/-- C5 amended: a returned (non-raising) call whose text content
contains the literal `"ERROR:"` marker is reclassified as a failure and
classified by `humanize_error`; text containing `"ERROR:
PERMISSION_DENIED"` (or `"does not have permission"`) is classified
`PermissionDenied`, while lower-case `"ERROR: permission denied"` falls
to the default (unclassified) branch. -/
theorem claim_C5_amended :
    (∀ (content : List Content) (s : String), Content.text s ∈ content →
      containsSubstr s "ERROR:" = true → (singleCall (.ok content)).success = false)
    ∧ (∀ content t, firstErrorText content = some t →
        singleCall (.ok content) = ⟨false, some (humanizeError t)⟩)
    ∧ singleCall (.ok [.text "ERROR: PERMISSION_DENIED"]) = ⟨false, some .permissionDenied⟩
    ∧ singleCall (.ok [.text "ERROR: does not have permission"]) =
        ⟨false, some .permissionDenied⟩
    ∧ singleCall (.ok [.text "ERROR: permission denied"]) = ⟨false, some .unclassified⟩ := by
  refine ⟨?_, ?_, rfl, rfl, rfl⟩
  · intro content s hmem herr
    have : ∃ t, firstErrorText content = some t := by
      induction content with
      | nil => simp at hmem
      | cons hd tl ih =>
        cases hd with
        | text u =>
          by_cases hu : containsSubstr u "ERROR:" = true
          · exact ⟨u, by simp [firstErrorText, hu]⟩
          · rcases List.mem_cons.mp hmem with heq | htl
            · cases heq
              exact absurd herr hu
            · rcases ih htl with ⟨t, ht⟩
              exact ⟨t, by simp [firstErrorText, hu, ht]⟩
        | other tag =>
          rcases List.mem_cons.mp hmem with heq | htl
          · cases heq
          · rcases ih htl with ⟨t, ht⟩
            exact ⟨t, by simp [firstErrorText, ht]⟩
    rcases this with ⟨t, ht⟩
    simp [singleCall, ht]
  · intro content t ht
    simp [singleCall, ht]

/-- Witness for C5 amended: a mixed content list with an error-marked
text item yields a failed outcome. -/
theorem claim_C5_amended_witness :
    (singleCall (.ok [.other "image", .text "ok so far",
      .text "ERROR: boom"])).success = false :=
  claim_C5_amended.1 [.other "image", .text "ok so far", .text "ERROR: boom"]
    "ERROR: boom" (by simp) rfl

/-- C3: steps of a plan execute in order and execution stops at the
first failing step: a 3-step plan whose second step returns an
`"ERROR:"`-marked result produces exactly two outcomes, the second
failed, reports the stop at 1-based index 2 of 3, and never consults the
third step's execution. -/
theorem claim_C3_stop_at_first_failure :
    ∀ (steps : List String) (exec exec' : Nat → ExecResult)
      (c1 : List Content) (t2 : String),
      steps.length = 3 →
      exec 1 = .ok c1 → firstErrorText c1 = none →
      exec 2 = .ok [.text t2] → containsSubstr t2 "ERROR:" = true →
      runMultiStep steps exec = ⟨[⟨1, true⟩, ⟨2, false⟩], some 2, 3⟩
      ∧ (exec' 1 = exec 1 → exec' 2 = exec 2 →
          runMultiStep steps exec' = runMultiStep steps exec) := by
  intro steps exec exec' c1 t2 hlen h1 hc1 h2 ht2
  have hrun : ∀ g : Nat → ExecResult, g 1 = .ok c1 → g 2 = .ok [.text t2] →
      runMultiStep steps g = ⟨[⟨1, true⟩, ⟨2, false⟩], some 2, 3⟩ := by
    intro g hg1 hg2
    simp only [runMultiStep, hlen]
    simp [runStepsFrom, hg1, hg2, hc1, firstErrorText, ht2]
  refine ⟨hrun exec h1 h2, fun he1 he2 => ?_⟩
  rw [hrun exec h1 h2, hrun exec' (he1.trans h1) (he2.trans h2)]

/-- Witness for C3 on a concrete 3-step plan whose second step fails. -/
theorem claim_C3_stop_at_first_failure_witness :
    runMultiStep ["s1", "s2", "s3"]
      (fun i => if i = 2 then .ok [.text "ERROR: boom"] else .ok []) =
      ⟨[⟨1, true⟩, ⟨2, false⟩], some 2, 3⟩ :=
  (claim_C3_stop_at_first_failure ["s1", "s2", "s3"]
    (fun i => if i = 2 then .ok [.text "ERROR: boom"] else .ok [])
    (fun i => if i = 2 then .ok [.text "ERROR: boom"] else .ok [])
    [] "ERROR: boom" rfl rfl rfl rfl rfl).1

/-- One loop pass on the always-continuing command re-issues the same
command and appends one more executed call. -/
theorem sessStep_contCmd (t : List (String × List (String × Value))) :
    sessStep trAlways srvOk (.running contCmd t) = .running contCmd (t ++ [contCall]) := by
  rfl

/-- C1 (the claimed behavior does not exist in the code): the execution
loop has no iteration bound — with a translator that always returns the
continuing step `thoughtNumber=1, totalThoughts=3,
nextThoughtNeeded=true`, after any number `n` of loop passes the session
is still running, having executed `n` calls; it never halts (there is no
`SequenceBudgetExceeded` transition anywhere in the client). -/
theorem claim_C1_loop_never_terminates :
    ∀ n : Nat,
      (sessStep trAlways srvOk)^[n] (.running contCmd []) =
        .running contCmd (List.replicate n contCall)
      ∧ ((sessStep trAlways srvOk)^[n] (.running contCmd [])).isRunning = true := by
  intro n
  induction n with
  | zero => exact ⟨rfl, rfl⟩
  | succ k ih =>
    have hstep : (sessStep trAlways srvOk)^[k + 1] (.running contCmd []) =
        .running contCmd (List.replicate (k + 1) contCall) := by
      rw [Function.iterate_succ_apply', ih.1, sessStep_contCmd,
        ← List.replicate_succ']
    exact ⟨hstep, by rw [hstep]; rfl⟩

/-- C2: after an executed `sequentialthinking` step (NLP enabled, call
returned without raising), the loop continues iff the *arguments* of the
step just executed request continuation and their `thoughtNumber` is
less than their `totalThoughts`; the server's returned content plays no
role in the decision. -/
theorem claim_C2_continuation_from_arguments :
    ∀ (cmdStr : String) (args : List (String × Value)) (w : Bool)
      (f : String → Except Unit String)
      (server server' : String → List (String × Value) → ExecResult)
      (content content' : List Content)
      (trace : List (String × List (String × Value))) (a b : Int),
      parseCommand cmdStr = ⟨some "sequentialthinking", args, w⟩ →
      server "sequentialthinking" args = .ok content →
      server' "sequentialthinking" args = .ok content' →
      pyNum (getArg args "thoughtNumber" (.int 0)) = some a →
      pyNum (getArg args "totalThoughts" (.int 0)) = some b →
      ((sessStep (some f) server (.running cmdStr trace)).isRunning = true ↔
        (pyTruthy (getArg args "nextThoughtNeeded" (.bool false)) = true ∧ a < b))
      ∧ (sessStep (some f) server' (.running cmdStr trace)).isRunning =
          (sessStep (some f) server (.running cmdStr trace)).isRunning := by
  intro cmdStr args w f server server' content content' trace a b hP hs hs' ha hb
  have hlt : pyLt (getArg args "thoughtNumber" (.int 0))
      (getArg args "totalThoughts" (.int 0)) = some (decide (a < b)) := by
    simp [pyLt, ha, hb]
  have key : ∀ (srv : String → List (String × Value) → ExecResult)
      (cnt : List Content), srv "sequentialthinking" args = .ok cnt →
      ((sessStep (some f) srv (.running cmdStr trace)).isRunning =
        (pyTruthy (getArg args "nextThoughtNeeded" (.bool false)) && decide (a < b))) := by
    intro srv cnt hsrv
    by_cases hd : (pyTruthy (getArg args "nextThoughtNeeded" (.bool false))
        && decide (a < b)) = true
    · simp [sessStep, hP, hsrv, hlt, hd, ha, SessState.isRunning]
    · simp only [Bool.not_eq_true] at hd
      simp [sessStep, hP, hsrv, hlt, hd, ha, SessState.isRunning]
  constructor
  · rw [key server content hs]
    constructor
    · intro h
      rcases Bool.and_eq_true .. |>.mp h with ⟨h1, h2⟩
      exact ⟨h1, of_decide_eq_true h2⟩
    · rintro ⟨h1, h2⟩
      exact Bool.and_eq_true .. |>.mpr ⟨h1, decide_eq_true h2⟩
  · rw [key server content hs, key server' content' hs']

/-- Witness for C2 on the concrete always-continuing command. -/
theorem claim_C2_continuation_from_arguments_witness :
    (sessStep (some fun s => .ok s) srvOk (.running contCmd [])).isRunning = true := by
  have h := claim_C2_continuation_from_arguments contCmd
    [("thought", .str "t"), ("thoughtNumber", .int 1),
     ("totalThoughts", .int 3), ("nextThoughtNeeded", .bool true)]
    false (fun s => .ok s) srvOk srvOk [] [] [] 1 3 rfl rfl rfl rfl rfl
  exact h.1.mpr ⟨rfl, by norm_num⟩

/-- A halted session state is a fixed point of the loop. -/
theorem sessStep_halted (tr : Translator)
    (server : String → List (String × Value) → ExecResult)
    (t : List (String × List (String × Value))) :
    sessStep tr server (.halted t) = .halted t := rfl

/-- Iterating the loop from a halted state stays halted. -/
theorem sessStep_iterate_halted (tr : Translator)
    (server : String → List (String × Value) → ExecResult)
    (t : List (String × List (String × Value))) (n : Nat) :
    (sessStep tr server)^[n] (.halted t) = .halted t := by
  induction n with
  | zero => rfl
  | succ k ih => rw [Function.iterate_succ_apply, sessStep_halted, ih]

/-- When a configured translator's loop pass halts, the pass is the same
with no translator at all: the translator is only consulted on
continuation. -/
theorem sessStep_none_eq_of_halts (f : String → Except Unit String)
    (server : String → List (String × Value) → ExecResult)
    (p : String) (t : List (String × List (String × Value)))
    (h : (sessStep (some f) server (.running p t)).isRunning = false) :
    sessStep none server (.running p t) = sessStep (some f) server (.running p t) := by
  rcases hP : parseCommand p with ⟨tl, args, w⟩
  rcases tl with _ | nm
  · simp [sessStep, hP]
  · by_cases hnm : nm = "tool_name"
    · subst hnm
      rcases hsv : server "sequentialthinking" args with _ | content
      · simp [sessStep, hP, hsv]
      · rcases hlt : pyLt (getArg args "thoughtNumber" (.int 0))
            (getArg args "totalThoughts" (.int 0)) with _ | lt
        · simp [sessStep, hP, hsv, hlt]
        · by_cases hd :
              (pyTruthy (getArg args "nextThoughtNeeded" (.bool false)) && lt) = true
          · rcases hpn : pyNum (getArg args "thoughtNumber" (.int 0)) with _ | c
            · simp [sessStep, hP, hsv, hlt, hd, hpn]
            · exfalso
              simp [sessStep, hP, hsv, hlt, hd, hpn, SessState.isRunning] at h
          · simp [sessStep, hP, hsv, hlt, hd]
    · by_cases hseq : nm = "sequentialthinking"
      · subst hseq
        rcases hsv : server "sequentialthinking" args with _ | content
        · simp [sessStep, hP, hsv, hnm]
        · rcases hlt : pyLt (getArg args "thoughtNumber" (.int 0))
              (getArg args "totalThoughts" (.int 0)) with _ | lt
          · simp [sessStep, hP, hsv, hnm, hlt]
          · by_cases hd :
                (pyTruthy (getArg args "nextThoughtNeeded" (.bool false)) && lt) = true
            · rcases hpn : pyNum (getArg args "thoughtNumber" (.int 0)) with _ | c
              · simp [sessStep, hP, hsv, hnm, hlt, hd, hpn]
              · exfalso
                simp [sessStep, hP, hsv, hnm, hlt, hd, hpn, SessState.isRunning] at h
            · simp [sessStep, hP, hsv, hnm, hlt, hd]
      · rcases hsv : server nm args with _ | content <;>
          simp [sessStep, hP, hsv, hnm, hseq]

set_option maxRecDepth 8000 in
/-- C7 counterexample: `submit` with no translator is *not* identical to
`submit` with a translator that returns its input unchanged — on a
`sequentialthinking` input requesting continuation the no-translator
session executes one call, while the identity-translator session
auto-continues and executes a second call (auto-looping requires a
configured translator). -/
theorem claim_C7_counterexample :
    (runSession none srvOk 5 c7input).trace.length = 1
    ∧ (runSession trId srvOk 5 c7input).trace.length = 2 := ⟨rfl, rfl⟩

/-- C7 amended: `translate` never propagates a translator exception —
with no translator it returns the input unchanged, and a raising
translator degrades to the input unchanged with a warning; the identity
translator also reproduces any stripped, unfenced input; and the session
behaves identically with no translator and with the identity translator
whenever the first executed step does not trigger auto-continuation
(on auto-continuing `sequentialthinking` steps the two differ, as the
counterexample shows). -/
theorem claim_C7_translate_degrades :
    (∀ p, generateToolCall none p = (p, false))
    ∧ (∀ (f : String → Except Unit String) p e, f p = .error e →
        generateToolCall (some f) p = (p, true))
    ∧ (∀ p, pyStrip p = p → pyStartsWith p "```" = false →
        generateToolCall trId p = (p, false))
    ∧ (∀ (server : String → List (String × Value) → ExecResult) (p : String),
        pyStrip p = p → pyStartsWith p "```" = false →
        (sessStep trId server (.running p [])).isRunning = false →
        ∀ fuel, runSession none server fuel p = runSession trId server fuel p) := by
  have hid : ∀ p, pyStrip p = p → pyStartsWith p "```" = false →
      generateToolCall trId p = (p, false) := by
    intro p hstrip hfence
    simp [generateToolCall, trId, hstrip, cleanupMarkdown, hfence]
  refine ⟨fun p => rfl, ?_, hid, ?_⟩
  · intro f p e h
    simp [generateToolCall, h]
  · intro server p hstrip hfence hhalt fuel
    have hinit : (generateToolCall trId p).1 = p := by rw [hid p hstrip hfence]
    have hnone : (generateToolCall none p).1 = p := rfl
    rcases fuel with _ | n
    · simp only [runSession, Function.iterate_zero, id_eq, hinit, hnone]
    · have hfirst' : sessStep none server (.running p []) =
          sessStep trId server (.running p []) :=
        sessStep_none_eq_of_halts (fun s => .ok s) server p [] hhalt
      cases hy : sessStep trId server (.running p []) with
      | running cmd' t =>
        rw [hy] at hhalt
        exact absurd hhalt (by simp [SessState.isRunning])
      | halted t =>
        simp only [runSession, Function.iterate_succ_apply, hinit, hnone]
        rw [hfirst', hy, sessStep_iterate_halted, sessStep_iterate_halted]

/-- Witness for C7 amended on the `"list tables"` scenario. -/
theorem claim_C7_translate_degrades_witness :
    runSession none srvOk 3 "list tables" = runSession trId srvOk 3 "list tables" :=
  claim_C7_translate_degrades.2.2.2 srvOk "list tables" rfl rfl rfl 3

/-! ## Decimal rendering facts -/

theorem digitChar_spec (m : Nat) (hm : m < 10) :
    isDigitChar (Char.ofNat (m + 48)) = true
    ∧ digitVal (Char.ofNat (m + 48)) = m
    ∧ (0 < m → Char.ofNat (m + 48) ≠ '0') := by
  interval_cases m <;> refine ⟨by decide, by decide, ?_⟩ <;> simp <;> decide

theorem digit_toLower (c : Char) (h : isDigitChar c = true) : c.toLower = c := by
  simp only [isDigitChar, Bool.and_eq_true, decide_eq_true_eq] at h
  simp only [Char.toLower]
  split
  · next hcond => omega
  · rfl

theorem digit_ne (c d : Char) (h : isDigitChar c = true)
    (hd : d.toNat < 48 ∨ 57 < d.toNat) : c ≠ d := by
  simp only [isDigitChar, Bool.and_eq_true, decide_eq_true_eq] at h
  intro he
  subst he
  omega

theorem digit_plain (c : Char) (h : isDigitChar c = true) : plainChar c = true := by
  simp only [isDigitChar, Bool.and_eq_true, decide_eq_true_eq] at h
  have hne : ∀ d : Char, d.toNat < 48 ∨ 57 < d.toNat → c ≠ d := by
    intro d hd he
    subst he
    omega
  have h1 : c ≠ ' ' := hne ' ' (by decide)
  have h2 : c ≠ '\t' := hne '\t' (by decide)
  have h3 : c ≠ '\r' := hne '\r' (by decide)
  have h4 : c ≠ '\n' := hne '\n' (by decide)
  have h5 : c ≠ '\'' := hne '\'' (by decide)
  have h6 : c ≠ '"' := hne '"' (by decide)
  have h7 : c ≠ '\\' := hne '\\' (by decide)
  simp [plainChar, isShlexWs, h1, h2, h3, h4, h5, h6, h7]

/-- The digit accumulator: `foldl (fun a c => a * 10 + digitVal c)`. -/
theorem natDigits_go_spec :
    ∀ (f n : Nat) (acc : List Char), n < f →
      ∃ ds : List Char, natDigits.go f n acc = ds ++ acc ∧ ds ≠ []
        ∧ ds.all isDigitChar = true
        ∧ (0 < n → ds.head? ≠ some '0')
        ∧ ∀ a : Nat, List.foldl (fun a c => a * 10 + digitVal c) a ds =
            a * 10 ^ ds.length + n := by
  intro f
  induction f with
  | zero => intro n acc h; omega
  | succ g ih =>
    intro n acc h
    by_cases hn : n < 10
    · refine ⟨[Char.ofNat (n % 10 + 48)], ?_, by simp, ?_, ?_, ?_⟩
      · simp [natDigits.go, hn]
      · simpa using (digitChar_spec (n % 10) (Nat.mod_lt _ (by norm_num))).1
      · intro hpos
        have := (digitChar_spec (n % 10) (Nat.mod_lt _ (by norm_num))).2.2
          (by omega)
        simpa using this
      · intro a
        have h2 := (digitChar_spec (n % 10) (Nat.mod_lt _ (by norm_num))).2.1
        simp only [Nat.mod_eq_of_lt hn] at h2 ⊢
        simp [h2]
    · have hrec : natDigits.go (g + 1) n acc =
          natDigits.go g (n / 10) (Char.ofNat (n % 10 + 48) :: acc) := by
        simp [natDigits.go, hn]
      have hlt : n / 10 < g := by omega
      rcases ih (n / 10) (Char.ofNat (n % 10 + 48) :: acc) hlt with
        ⟨ds', heq, hne, hdig, hhd, hval⟩
      refine ⟨ds' ++ [Char.ofNat (n % 10 + 48)], ?_, by simp, ?_, ?_, ?_⟩
      · rw [hrec, heq]
        simp
      · simp only [List.all_append, Bool.and_eq_true, hdig, true_and]
        simpa using (digitChar_spec (n % 10) (Nat.mod_lt _ (by norm_num))).1
      · intro _
        have hpos10 : 0 < n / 10 := by omega
        rcases ds' with _ | ⟨d0, ds''⟩
        · exact absurd rfl hne
        · simpa using hhd hpos10
      · intro a
        rw [List.foldl_append, hval a]
        have h2 := (digitChar_spec (n % 10) (Nat.mod_lt _ (by norm_num))).2.1
        simp only [List.foldl_cons, List.foldl_nil, h2, List.length_append,
          List.length_cons, List.length_nil]
        have : 10 ^ (ds'.length + (0 + 1)) = 10 ^ ds'.length * 10 := by ring
        rw [this]
        have hdm : n / 10 * 10 + n % 10 = n := by omega
        ring_nf
        omega

theorem natDigits_spec (n : Nat) :
    natDigits n ≠ [] ∧ (natDigits n).all isDigitChar = true
    ∧ (0 < n → (natDigits n).head? ≠ some '0')
    ∧ strToNat (natRepr n) = n := by
  rcases natDigits_go_spec (n + 1) n [] (by omega) with ⟨ds, heq, hne, hdig, hhd, hval⟩
  have hds : natDigits n = ds := by
    simp only [natDigits, heq, List.append_nil]
  refine ⟨hds ▸ hne, hds ▸ hdig, fun h => hds ▸ hhd h, ?_⟩
  have : (natRepr n).toList = natDigits n := rfl
  simp only [strToNat, this, hds]
  simpa using hval 0

theorem strToNat_natRepr (n : Nat) : strToNat (natRepr n) = n :=
  (natDigits_spec n).2.2.2

theorem isPyDigit_natRepr (n : Nat) : isPyDigit (natRepr n) = true := by
  rcases natDigits_spec n with ⟨hne, hdig, -, -⟩
  have ht : (natRepr n).toList = natDigits n := rfl
  simp only [isPyDigit, ht, hdig, Bool.and_true, Bool.not_eq_true']
  simpa using hne

theorem pyLower_of_digits (s : String) (h : s.toList.all isDigitChar = true) :
    pyLower s = s := by
  have hmap : s.toList.map Char.toLower = s.toList := by
    have hall : ∀ c ∈ s.toList, Char.toLower c = c := by
      intro c hc
      exact digit_toLower c (List.all_eq_true.mp h c hc)
    calc s.toList.map Char.toLower = s.toList.map id := List.map_congr_left hall
    _ = s.toList := List.map_id _
  show String.mk (s.toList.map Char.toLower) = s
  rw [hmap]
  rfl

theorem digits_ne_bool_literal (s : String) (hne : s.toList ≠ [])
    (h : s.toList.all isDigitChar = true) :
    pyLower s ≠ "true" ∧ pyLower s ≠ "false" := by
  rw [pyLower_of_digits s h]
  constructor <;> intro he <;> subst he <;> revert h <;> decide

/-! ## `shlex` round-trip of plain tokens -/

theorem shlexCore_plain_prefix :
    ∀ (cs : List Char), cs.all plainChar = true →
      ∀ (tl : List Char) (cur : Option (List Char)) (acc : List String),
        shlexCore (cs ++ tl) .norm cur acc =
          shlexCore tl .norm
            (if cs.isEmpty then cur else some (cs.reverse ++ cur.getD [])) acc := by
  intro cs
  induction cs with
  | nil => intro _ tl cur acc; simp
  | cons c cs' ih =>
    intro hall tl cur acc
    have hc : plainChar c = true := by
      have := List.all_eq_true.mp hall c (by simp)
      simpa using this
    have hrest : cs'.all plainChar = true := by
      rcases List.all_eq_true.mp (by exact hall) with _
      apply List.all_eq_true.mpr
      intro x hx
      exact List.all_eq_true.mp hall x (by simp [hx])
    simp only [plainChar, Bool.and_eq_true, Bool.not_eq_true', decide_eq_true_eq] at hc
    obtain ⟨⟨⟨hws, h1⟩, h2⟩, h3⟩ := hc
    have hstep : shlexCore (c :: (cs' ++ tl)) .norm cur acc =
        shlexCore (cs' ++ tl) .norm (some (c :: cur.getD [])) acc := by
      conv_lhs => rw [shlexCore.eq_def]
      simp [hws, h1, h2, h3]
    rw [List.cons_append, hstep, ih hrest]
    rcases cs' with _ | ⟨d, ds⟩ <;> simp

theorem shlexCore_flush_space (tl : List Char) (cur : Option (List Char))
    (acc : List String) :
    shlexCore (' ' :: tl) .norm cur acc = shlexCore tl .norm none (shFlush cur acc) := by
  conv_lhs => rw [shlexCore.eq_def]
  simp [isShlexWs]

theorem shlex_join_tokens :
    ∀ (toks : List String), (∀ t ∈ toks, wfToken t = true) →
      ∀ acc, shlexCore (joinChars (toks.map String.toList)) .norm none acc =
        .ok (acc.reverse ++ toks) := by
  intro toks
  induction toks with
  | nil => intro _ acc; simp [joinChars, shlexCore, shFlush]
  | cons t rest ih =>
    intro hwf acc
    have hwt : wfToken t = true := hwf t (by simp)
    simp only [wfToken, Bool.and_eq_true, Bool.not_eq_true'] at hwt
    obtain ⟨hne, hplain⟩ := hwt
    have hnel : t.toList ≠ [] := fun hx => by
      have hx' : t.data = [] := hx
      simp [hx'] at hne
    have hie : t.toList.isEmpty = false := hne
    cases rest with
    | nil =>
      have hj : joinChars ([t].map String.toList) = t.toList ++ [] := by
        simp [joinChars]
      rw [hj, shlexCore_plain_prefix t.toList hplain [] none acc]
      simp only [hie, Bool.false_eq_true, if_false]
      simp [shlexCore, shFlush, List.reverse_cons]
    | cons t2 rest2 =>
      have hj : joinChars ((t :: t2 :: rest2).map String.toList) =
          t.toList ++ ' ' :: joinChars ((t2 :: rest2).map String.toList) := by
        simp [joinChars]
      rw [hj, shlexCore_plain_prefix t.toList hplain _ none acc]
      simp only [hie, Bool.false_eq_true, if_false]
      rw [shlexCore_flush_space]
      have : shFlush (some (t.toList.reverse ++ (none : Option (List Char)).getD []))
          acc = String.mk t.toList :: acc := by
        simp [shFlush]
      rw [this]
      rw [ih (fun u hu => hwf u (by simp [hu])) (String.mk t.toList :: acc)]
      have hmk : String.mk t.toList = t := rfl
      simp [hmk]

theorem shlexSplit_join (toks : List String) (h : ∀ t ∈ toks, wfToken t = true) :
    shlexSplit (String.mk (joinChars (toks.map String.toList))) = .ok toks := by
  show shlexCore (joinChars (toks.map String.toList)) .norm none [] = .ok toks
  rw [shlex_join_tokens toks h []]
  rfl

/-! ## `split('=', 1)` facts -/

theorem splitArgToken_go_spec :
    ∀ (ks : List Char), (∀ c ∈ ks, c ≠ '=') → ∀ (vs pre : List Char),
      splitArgToken.go (pre : List Char) (ks ++ '=' :: vs) =
        some (String.mk (pre.reverse ++ ks), String.mk vs) := by
  intro ks
  induction ks with
  | nil =>
    intro _ vs pre
    simp [splitArgToken.go]
  | cons k ks' ih =>
    intro hk vs pre
    have hkne : k ≠ '=' := hk k (by simp)
    have : splitArgToken.go pre (k :: (ks' ++ '=' :: vs)) =
        splitArgToken.go (k :: pre) (ks' ++ '=' :: vs) := by
      conv_lhs => rw [splitArgToken.go.eq_def]
      simp [hkne]
    rw [List.cons_append, this, ih (fun c hc => hk c (by simp [hc])) vs (k :: pre)]
    simp

theorem eq_split_decomposition :
    ∀ (cs : List Char), '=' ∈ cs →
      ∃ kl vl, cs = kl ++ '=' :: vl ∧ ∀ c ∈ kl, c ≠ '=' := by
  intro cs
  induction cs with
  | nil => intro h; simp at h
  | cons c tl ih =>
    intro h
    by_cases hc : c = '='
    · subst hc
      exact ⟨[], tl, by simp, by simp⟩
    · have : '=' ∈ tl := by
        rcases List.mem_cons.mp h with h1 | h1
        · exact absurd h1.symm hc
        · exact h1
      rcases ih this with ⟨kl, vl, heq, hkl⟩
      refine ⟨c :: kl, vl, by simp [heq], ?_⟩
      intro x hx
      rcases List.mem_cons.mp hx with h1 | h1
      · subst h1; exact hc
      · exact hkl x h1

theorem splitArgToken_of_mem_eq (t : String) (h : '=' ∈ t.toList) :
    ∃ kl vl, t.toList = kl ++ '=' :: vl ∧ (∀ c ∈ kl, c ≠ '=')
      ∧ splitArgToken t = some (String.mk kl, String.mk vl) := by
  rcases eq_split_decomposition t.toList h with ⟨kl, vl, heq, hkl⟩
  refine ⟨kl, vl, heq, hkl, ?_⟩
  show splitArgToken.go [] t.toList = _
  rw [heq, splitArgToken_go_spec kl hkl vl []]
  simp

/-! ## Python-`dict` association-list facts -/

theorem dictInsert_append_of_not_mem (d : List (String × Value)) (k : String)
    (v : Value) (h : k ∉ d.map Prod.fst) : dictInsert d k v = d ++ [(k, v)] := by
  induction d with
  | nil => rfl
  | cons kv tl ih =>
    have hne : kv.1 ≠ k := by
      intro he
      exact h (by simp [he.symm])
    cases kv with
    | mk k' v' =>
      simp only [dictInsert, hne, if_false]
      rw [ih (fun hm => h (by simp [hm]))]
      simp

theorem dictInsert_keys (d : List (String × Value)) (k : String) (v : Value) :
    (dictInsert d k v).map Prod.fst =
      if k ∈ d.map Prod.fst then d.map Prod.fst else d.map Prod.fst ++ [k] := by
  induction d with
  | nil => simp [dictInsert]
  | cons kv tl ih =>
    cases kv with
    | mk k' v' =>
      by_cases he : k' = k
      · subst he
        simp [dictInsert]
      · simp only [dictInsert, he, if_false, List.map_cons, ih]
        by_cases hm : k ∈ tl.map Prod.fst <;>
          simp [hm, Ne.symm he, he]

theorem dictInsert_keys_nodup (d : List (String × Value)) (k : String) (v : Value)
    (h : (d.map Prod.fst).Nodup) : ((dictInsert d k v).map Prod.fst).Nodup := by
  rw [dictInsert_keys]
  by_cases hm : k ∈ d.map Prod.fst
  · simpa [hm]
  · simp only [hm, if_false]
    rw [List.nodup_append]
    refine ⟨h, List.nodup_singleton _, ?_⟩
    intro a ha hb
    simp only [List.mem_singleton] at hb
    subst hb
    exact hm ha

theorem dictInsert_mem (d : List (String × Value)) (k : String) (v : Value)
    (kv : String × Value) (h : kv ∈ dictInsert d k v) : kv ∈ d ∨ kv = (k, v) := by
  induction d with
  | nil =>
    simp [dictInsert] at h
    exact Or.inr h
  | cons kv' tl ih =>
    cases kv' with
    | mk k' v' =>
      by_cases he : k' = k
      · subst he
        simp only [dictInsert, if_pos rfl] at h
        rcases List.mem_cons.mp h with h1 | h1
        · exact Or.inr (by simp [h1])
        · exact Or.inl (by simp [h1])
      · simp only [dictInsert, he, if_false] at h
        rcases List.mem_cons.mp h with h1 | h1
        · exact Or.inl (by simp [h1])
        · rcases ih h1 with h2 | h2
          · exact Or.inl (by simp [h2])
          · exact Or.inr h2

theorem foldl_dictInsert_id :
    ∀ (args acc : List (String × Value)),
      ((acc ++ args).map Prod.fst).Nodup →
      List.foldl (fun d kv => dictInsert d kv.1 kv.2) acc args = acc ++ args := by
  intro args
  induction args with
  | nil => intro acc _; simp
  | cons kv rest ih =>
    intro acc hnd
    cases kv with
    | mk k v =>
      have hknotin : k ∉ acc.map Prod.fst := by
        intro hm
        have : ¬(acc.map Prod.fst).Disjoint (((k, v) :: rest).map Prod.fst) := by
          intro hdis
          exact hdis hm (by simp)
        rw [List.map_append, List.nodup_append] at hnd
        exact this hnd.2.2
      have hstep : dictInsert acc k v = acc ++ [(k, v)] :=
        dictInsert_append_of_not_mem acc k v hknotin
      simp only [List.foldl_cons, hstep]
      rw [ih (acc ++ [(k, v)]) (by simpa using hnd)]
      simp

/-! ## JSON decoder invariants on quote-free input -/

theorem skipWs_suffix : ∀ cs : List Char, skipWs cs <:+ cs := by
  intro cs
  induction cs with
  | nil => exact List.suffix_refl _
  | cons c tl ih =>
    by_cases h : isJsonWs c = true
    · simp only [skipWs, h, if_true]
      exact ih.trans (List.suffix_cons c tl)
    · simp only [skipWs, h, Bool.false_eq_true, if_false]
      exact List.suffix_refl _

theorem not_mem_of_suffix {a : Char} {cs rest : List Char}
    (h : a ∉ cs) (hs : rest <:+ cs) : a ∉ rest :=
  fun hm => h (hs.subset hm)

theorem scanDigits_suffix : ∀ (cs ds rest : List Char),
    scanDigits cs = (ds, rest) → rest <:+ cs := by
  intro cs
  induction cs with
  | nil =>
    intro ds rest h
    simp only [scanDigits] at h
    cases h
    exact List.suffix_refl _
  | cons c tl ih =>
    intro ds rest h
    by_cases hd : isDigitChar c = true
    · rcases hsd : scanDigits tl with ⟨ds', rest'⟩
      simp only [scanDigits, hd, if_true, hsd] at h
      cases h
      exact (ih ds' rest hsd).trans (List.suffix_cons c tl)
    · simp only [scanDigits, hd, if_false] at h
      cases h
      exact List.suffix_refl _

/-- The digit-run step of `scanJsonInt`, shared by both sign cases:
on success the leftover is a suffix of the input after the first
digit. -/
theorem scanJsonInt_core_suffix (c : Char) (tl : List Char) (neg : Bool)
    (n : Int) (rest : List Char)
    (h : (if !isDigitChar c then none
          else
            let (ds, r0) :=
              if c = '0' then ([c], tl)
              else
                let (more, r) := scanDigits tl
                (c :: more, r)
            match r0 with
            | r :: _ =>
              if r = '.' || r = 'e' || r = 'E' then none
              else
                let m : Nat := strToNat (String.mk ds)
                some (if neg then -(m : Int) else (m : Int), r0)
            | [] =>
              let m : Nat := strToNat (String.mk ds)
              some (if neg then -(m : Int) else (m : Int), [])) = some (n, rest)) :
    rest <:+ tl := by
  by_cases hd : isDigitChar c = true
  · simp only [hd, Bool.not_true, Bool.false_eq_true, if_false] at h
    rcases hone : (if c = '0' then ([c], tl)
        else
          let (more, r) := scanDigits tl
          (c :: more, r)) with ⟨ds0, rest0⟩
    rw [hone] at h
    have hrs : rest0 <:+ tl := by
      by_cases hz : c = '0'
      · simp only [hz, if_pos] at hone
        cases hone
        exact List.suffix_refl _
      · rcases hsd : scanDigits tl with ⟨more, r⟩
        simp only [hz, if_false, hsd] at hone
        cases hone
        exact scanDigits_suffix tl more rest0 hsd
    rcases rest0 with _ | ⟨r, rtl⟩
    · simp only at h
      rcases Option.some.inj h with h'
      cases h'
      exact List.nil_suffix
    · by_cases hre : (r = '.' || r = 'e' || r = 'E') = true
      · simp [hre] at h
      · simp only [hre, Bool.false_eq_true, if_false] at h
        rcases Option.some.inj h with h'
        cases h'
        exact hrs
  · simp [hd] at h

theorem scanJsonInt_suffix (cs : List Char) (n : Int) (rest : List Char)
    (h : scanJsonInt cs = some (n, rest)) : rest <:+ cs := by
  unfold scanJsonInt at h
  rcases cs with _ | ⟨c0, tl0⟩
  · simp at h
  · by_cases hneg : c0 = '-'
    · subst hneg
      rcases tl0 with _ | ⟨c1, tl1⟩
      · simp at h
      · exact (scanJsonInt_core_suffix c1 tl1 true n rest h).trans
          ((List.suffix_cons c1 tl1).trans (List.suffix_cons '-' (c1 :: tl1)))
    · have hm : (match c0 :: tl0 with
          | '-' :: tl => ((true : Bool), tl)
          | _ => ((false : Bool), c0 :: tl0)) = (false, c0 :: tl0) := by
        split
        · next tl heq =>
          exfalso
          injection heq with h1 h2
          exact hneg h1
        · rfl
      rw [hm] at h
      exact (scanJsonInt_core_suffix c0 tl0 false n rest h).trans
        (List.suffix_cons c0 tl0)

/-- Decoding a quote-free input can only produce values without string
literals or object members, with proper array spines; object-member
parsing cannot succeed at all without a quote. -/
theorem parse_quotefree :
    ∀ f : Nat,
      (∀ cs j rest, '"' ∉ cs → parseJval f cs = some (j, rest) →
        jgood j = true ∧ '"' ∉ rest)
      ∧ (∀ cs j rest, '"' ∉ cs → parseArrItems f cs = some (j, rest) →
        jgood j = true ∧ isArrSpineB j = true ∧ '"' ∉ rest)
      ∧ (∀ cs j rest, '"' ∉ cs → parseObjItems f cs = some (j, rest) → False) := by
  intro f
  induction f with
  | zero =>
    refine ⟨?_, ?_, ?_⟩ <;> intro cs j rest _ h <;>
      simp [parseJval, parseArrItems, parseObjItems] at h
  | succ g ih =>
    obtain ⟨ihV, ihA, ihO⟩ := ih
    refine ⟨?_, ?_, ?_⟩
    · intro cs j rest hq h
      simp only [parseJval] at h
      split at h
      · simp at h
      · next c tl hsw =>
        have hq' : '"' ∉ c :: tl := not_mem_of_suffix hq (hsw ▸ skipWs_suffix cs)
        have hqtl : '"' ∉ tl := fun hm => hq' (by simp [hm])
        have hcq : c ≠ '"' := fun he => hq' (by simp [he])
        split at h
      -- c = 'n'
        · split at h
          · rcases Option.some.inj h with h'
            injection h' with hj hrest
            subst hj; subst hrest
            exact ⟨rfl, fun hm => hqtl (by simp [hm])⟩
          · simp at h
        · split at h
      -- c = 't'
          · split at h
            · rcases Option.some.inj h with h'
              injection h' with hj hrest
              subst hj; subst hrest
              exact ⟨rfl, fun hm => hqtl (by simp [hm])⟩
            · simp at h
          · split at h
      -- c = 'f'
            · split at h
              · rcases Option.some.inj h with h'
                injection h' with hj hrest
                subst hj; subst hrest
                exact ⟨rfl, fun hm => hqtl (by simp [hm])⟩
              · simp at h
            · split at h
      -- c = '[' (the c = '"' branch is discharged by hcq)
              · have hqsk : '"' ∉ skipWs tl :=
                  not_mem_of_suffix hqtl (skipWs_suffix tl)
                split at h
                · next rest' heq =>
                  rcases Option.some.inj h with h'
                  injection h' with hj hrest
                  subst hj; subst hrest
                  refine ⟨rfl, fun hm => ?_⟩
                  rw [heq] at hqsk
                  exact hqsk (by simp [hm])
                · rcases ihA _ _ _ hqsk h with ⟨h1, _, h3⟩
                  exact ⟨h1, h3⟩
              · split at h
      -- c = '\x7b'
                · have hqsk : '"' ∉ skipWs tl :=
                    not_mem_of_suffix hqtl (skipWs_suffix tl)
                  split at h
                  · next rest' heq =>
                    rcases Option.some.inj h with h'
                    injection h' with hj hrest
                    subst hj; subst hrest
                    refine ⟨rfl, fun hm => ?_⟩
                    rw [heq] at hqsk
                    exact hqsk (by simp [hm])
                  · exact absurd h (fun hcon => ihO _ _ _ hqsk hcon)
      -- number
                · split at h
                  · next n' rest' heq =>
                    rcases Option.some.inj h with h'
                    injection h' with hj hrest
                    subst hj; subst hrest
                    exact ⟨rfl, not_mem_of_suffix hq'
                      (scanJsonInt_suffix _ _ _ heq)⟩
                  · simp at h
    · intro cs j rest hq h
      simp only [parseArrItems] at h
      split at h
      · simp at h
      · next v rest0 hpv =>
        rcases ihV _ _ _ hq hpv with ⟨hgv, hq0⟩
        have hq1 : '"' ∉ skipWs rest0 := not_mem_of_suffix hq0 (skipWs_suffix rest0)
        split at h
        · next rest1 heq =>
          rw [heq] at hq1
          have hqtl1 : '"' ∉ rest1 := fun hm => hq1 (by simp [hm])
          split at h
          · next spine rest2 hpa =>
            rcases Option.some.inj h with h'
            injection h' with hj hrest
            subst hj; subst hrest
            rcases ihA _ _ _ hqtl1 hpa with ⟨h1, h2, h3⟩
            exact ⟨by simp [jgood, hgv, h1, h2], rfl, h3⟩
          · simp at h
        · next rest1 heq =>
          rcases Option.some.inj h with h'
          injection h' with hj hrest
          subst hj; subst hrest
          rw [heq] at hq1
          exact ⟨by simp [jgood, hgv, isArrSpineB], rfl,
            fun hm => hq1 (by simp [hm])⟩
        · simp at h
    · intro cs j rest hq h
      simp only [parseObjItems] at h
      have hq1 : '"' ∉ skipWs cs := not_mem_of_suffix hq (skipWs_suffix cs)
      split at h
      · next tl heq =>
        rw [heq] at hq1
        exact hq1 (by simp)
      · simp at h

/-! ## Facts about `dumps` output -/

theorem isJsonWs_eq_isShlexWs (c : Char) : isJsonWs c = isShlexWs c := by
  simp only [isJsonWs, isShlexWs]
  by_cases h1 : c = ' ' <;> by_cases h2 : c = '\t' <;> by_cases h3 : c = '\n' <;>
    by_cases h4 : c = '\r' <;> simp [h1, h2, h3, h4]

theorem skipWs_cons_of_plain (c : Char) (l : List Char) (h : plainChar c = true) :
    skipWs (c :: l) = c :: l := by
  have hws : isShlexWs c = false := by
    simp only [plainChar, Bool.and_eq_true, Bool.not_eq_true'] at h
    exact h.1.1.1
  simp [skipWs, isJsonWs_eq_isShlexWs, hws]

theorem all_plain_of_digits (l : List Char) (h : l.all isDigitChar = true) :
    l.all plainChar = true := by
  apply List.all_eq_true.mpr
  intro c hc
  exact digit_plain c (List.all_eq_true.mp h c hc)

theorem intReprChars_plain (n : Int) : (intReprChars n).all plainChar = true := by
  rcases natDigits_spec n.natAbs with ⟨-, hdig, -, -⟩
  simp only [intReprChars]
  by_cases hn : n < 0
  · simp only [hn, if_pos, List.all_cons, Bool.and_eq_true]
    exact ⟨by decide, all_plain_of_digits _ hdig⟩
  · simp only [hn, if_false]
    exact all_plain_of_digits _ hdig

theorem dumpsChars_plain :
    ∀ j : Jval, jgood j = true → ∀ m, (j.dumpsChars m).all plainChar = true := by
  intro j
  induction j with
  | null => intro _ m; cases m <;> decide
  | bool b => intro _ m; cases b <;> cases m <;> decide
  | num n => intro _ m; cases m <;> simpa [Jval.dumpsChars] using intReprChars_plain n
  | str s => intro hg; simp [jgood] at hg
  | arrNil => intro _ m; cases m <;> decide
  | arrCons hd tl ih_hd ih_tl =>
    intro hg m
    simp only [jgood, Bool.and_eq_true] at hg
    obtain ⟨⟨h1, _⟩, h3⟩ := hg
    cases m <;>
      simp [Jval.dumpsChars, ih_hd h1 DMode.top, ih_tl h3 DMode.tailA, plainChar,
        isShlexWs]
  | objNil => intro _ m; cases m <;> decide
  | objCons k v tl ih_v ih_tl => intro hg; simp [jgood] at hg

theorem natDigits_head_digit (m : Nat) :
    ∃ d dtl, natDigits m = d :: dtl ∧ isDigitChar d = true
      ∧ dtl.all isDigitChar = true := by
  rcases natDigits_spec m with ⟨hne, hdig, -, -⟩
  cases h : natDigits m with
  | nil => exact absurd h hne
  | cons d dtl =>
    rw [h] at hdig
    simp only [List.all_cons, Bool.and_eq_true] at hdig
    exact ⟨d, dtl, rfl, hdig.1, hdig.2⟩

theorem dumpsChars_top_cons (j : Jval) (hg : jgood j = true) :
    ∃ c cs', j.dumpsChars .top = c :: cs' ∧ plainChar c = true
      ∧ c ≠ ']' ∧ c ≠ '\x7d' := by
  cases j with
  | null => exact ⟨'n', _, rfl, by decide, by decide, by decide⟩
  | bool b =>
    cases b
    · exact ⟨'f', _, rfl, by decide, by decide, by decide⟩
    · exact ⟨'t', _, rfl, by decide, by decide, by decide⟩
  | num n =>
    show ∃ c cs', intReprChars n = c :: cs' ∧ _
    rcases natDigits_head_digit n.natAbs with ⟨d, dtl, hnd, hd, -⟩
    simp only [intReprChars]
    by_cases hn : n < 0
    · exact ⟨'-', natDigits n.natAbs, by simp [hn], by decide, by decide, by decide⟩
    · refine ⟨d, dtl, by simp [hn, hnd], digit_plain d hd, ?_, ?_⟩
      · exact digit_ne d ']' hd (by decide)
      · exact digit_ne d '\x7d' hd (by decide)
  | str s => simp [jgood] at hg
  | arrNil => exact ⟨'[', _, rfl, by decide, by decide, by decide⟩
  | arrCons hd tl =>
    exact ⟨'[', _, rfl, by decide, by decide, by decide⟩
  | objNil => exact ⟨'\x7b', _, rfl, by decide, by decide, by decide⟩
  | objCons k v tl => simp [jgood] at hg

/-! ## `scanJsonInt` round-trip -/

theorem scanDigits_exact :
    ∀ (ds rest : List Char), ds.all isDigitChar = true → delimOk rest →
      scanDigits (ds ++ rest) = (ds, rest) := by
  intro ds
  induction ds with
  | nil =>
    intro rest _ hdel
    cases rest with
    | nil => rfl
    | cons r rtl =>
      obtain ⟨hr, -, -, -⟩ := hdel
      simp [scanDigits, hr]
  | cons d dtl ih =>
    intro rest hall hdel
    simp only [List.all_cons, Bool.and_eq_true] at hall
    simp only [List.cons_append, scanDigits, hall.1, if_true, List.append_eq]
    rw [ih rest hall.2 hdel]

theorem scanJsonInt_roundtrip (m : Nat) (neg : Bool) (rest : List Char)
    (hdel : delimOk rest) :
    scanJsonInt ((if neg then ['-'] else []) ++ (natDigits m ++ rest)) =
      some (if neg then -(m : Int) else (m : Int), rest) := by
  rcases natDigits_head_digit m with ⟨d, dtl, hnd, hd, hdtl⟩
  have hvalue : strToNat (String.mk (natDigits m)) = m := strToNat_natRepr m
  have hsign : (match (if neg then ['-'] else []) ++ (natDigits m ++ rest) with
      | '-' :: tl => ((true : Bool), tl)
      | _ => ((false : Bool), (if neg then ['-'] else []) ++ (natDigits m ++ rest)))
      = (neg, natDigits m ++ rest) := by
    cases neg
    · simp only [Bool.false_eq_true, if_false, List.nil_append]
      rw [hnd]
      split
      · next tl heq =>
        exfalso
        rw [List.cons_append] at heq
        injection heq with h1 _
        exact digit_ne d '-' hd (by decide) h1
      · rfl
    · simp
  unfold scanJsonInt
  rw [hsign, hnd, List.cons_append]
  simp only [hd, Bool.not_true, Bool.false_eq_true, if_false]
  by_cases hm : m = 0
  · subst hm
    have h0 : natDigits 0 = ['0'] := rfl
    rw [h0] at hnd
    injection hnd with hd0 hdtl0
    subst hd0
    subst hdtl0
    rw [if_pos rfl]
    simp only [List.nil_append]
    cases rest with
    | nil =>
      cases neg <;> simp [show strToNat (String.mk ['0']) = 0 from rfl]
    | cons r rtl =>
      obtain ⟨hr1, hr2, hr3, hr4⟩ := hdel
      have hre : (r = '.' || r = 'e' || r = 'E') = false := by
        simp [hr2, hr3, hr4]
      simp only [hre, Bool.false_eq_true, if_false]
      cases neg <;> simp [show strToNat (String.mk ['0']) = 0 from rfl]
  · have hdne : d ≠ '0' := by
      rcases natDigits_spec m with ⟨-, -, hhd, -⟩
      intro he
      apply hhd (Nat.pos_of_ne_zero hm)
      rw [hnd, he]
      rfl
    rw [if_neg hdne]
    rw [scanDigits_exact dtl rest hdtl hdel]
    have hds : d :: dtl = natDigits m := hnd.symm
    cases rest with
    | nil =>
      rw [show (String.mk (d :: dtl) : String) = String.mk (natDigits m) from by rw [hds]]
      rw [hvalue]
    | cons r rtl =>
      obtain ⟨hr1, hr2, hr3, hr4⟩ := hdel
      have hre : (r = '.' || r = 'e' || r = 'E') = false := by
        simp [hr2, hr3, hr4]
      simp only [hre, Bool.false_eq_true, if_false]
      rw [show (String.mk (d :: dtl) : String) = String.mk (natDigits m) from by rw [hds]]
      rw [hvalue]

/-! ## Re-decoding rendered values -/

theorem parse_dumps_roundtrip :
    ∀ j : Jval,
      (jgood j = true → ∀ (f : Nat) (rest : List Char),
        (j.dumpsChars .top).length + 1 ≤ f → delimOk rest →
        parseJval f (j.dumpsChars .top ++ rest) = some (j, rest))
      ∧ (∀ hd tl, j = .arrCons hd tl → jgood j = true →
          ∀ (f : Nat) (rest : List Char),
          (hd.dumpsChars .top).length + (tl.dumpsChars .tailA).length + 2 ≤ f →
          parseArrItems f (hd.dumpsChars .top ++ (tl.dumpsChars .tailA ++ ']' :: rest)) =
            some (.arrCons hd tl, rest)) := by
  intro j
  induction j with
  | null =>
    refine ⟨?_, fun hd tl heq => by cases heq⟩
    intro _ f rest hf hdel
    match f, hf with
    | f' + 1, _ => rfl
  | bool b =>
    refine ⟨?_, fun hd tl heq => by cases heq⟩
    intro _ f rest hf hdel
    match f, hf with
    | f' + 1, _ => cases b <;> rfl
  | num n =>
    refine ⟨?_, fun hd tl heq => by cases heq⟩
    intro _ f rest hf hdel
    match f, hf with
    | f' + 1, _ =>
      rcases natDigits_head_digit n.natAbs with ⟨d, dtl, hnd, hd, -⟩
      by_cases hn : n < 0
      · have hrepr : ((Jval.num n).dumpsChars .top ++ rest : List Char) =
            '-' :: (natDigits n.natAbs ++ rest) := by
          simp [Jval.dumpsChars, intReprChars, hn]
        rw [hrepr]
        simp only [parseJval,
          skipWs_cons_of_plain '-' (natDigits n.natAbs ++ rest) (by decide)]
        rw [if_neg (by decide), if_neg (by decide), if_neg (by decide),
          if_neg (by decide), if_neg (by decide), if_neg (by decide)]
        have hrt := scanJsonInt_roundtrip n.natAbs true rest hdel
        simp only [if_true, List.singleton_append] at hrt
        simp only [hrt]
        have hval : -((n.natAbs : Nat) : Int) = n := by omega
        rw [hval]
      · have hrepr : ((Jval.num n).dumpsChars .top ++ rest : List Char) =
            d :: (dtl ++ rest) := by
          simp [Jval.dumpsChars, intReprChars, hn, hnd]
        rw [hrepr]
        simp only [parseJval, skipWs_cons_of_plain d (dtl ++ rest) (digit_plain d hd)]
        rw [if_neg (digit_ne d 'n' hd (by right; decide)),
          if_neg (digit_ne d 't' hd (by right; decide)),
          if_neg (digit_ne d 'f' hd (by right; decide)),
          if_neg (digit_ne d '"' hd (by left; decide)),
          if_neg (digit_ne d '[' hd (by right; decide)),
          if_neg (digit_ne d '\x7b' hd (by right; decide))]
        have hrt := scanJsonInt_roundtrip n.natAbs false rest hdel
        simp only [Bool.false_eq_true, if_false, List.nil_append] at hrt
        rw [hnd, List.cons_append] at hrt
        rw [hrt]
        have hval : ((n.natAbs : Nat) : Int) = n := by omega
        rw [hval]
  | str s =>
    refine ⟨?_, fun hd tl heq => by cases heq⟩
    intro hg
    simp [jgood] at hg
  | arrNil =>
    refine ⟨?_, fun hd tl heq => by cases heq⟩
    intro _ f rest hf hdel
    match f, hf with
    | f' + 1, _ => rfl
  | objNil =>
    refine ⟨?_, fun hd tl heq => by cases heq⟩
    intro _ f rest hf hdel
    match f, hf with
    | f' + 1, _ => rfl
  | objCons k v tl ih_v ih_tl =>
    refine ⟨?_, fun hd tl' heq => by cases heq⟩
    intro hg
    simp [jgood] at hg
  | arrCons hd tl ih_hd ih_tl =>
    have hQ : jgood (Jval.arrCons hd tl) = true → ∀ f rest,
        (hd.dumpsChars .top).length + (tl.dumpsChars .tailA).length + 2 ≤ f →
        parseArrItems f (hd.dumpsChars .top ++ (tl.dumpsChars .tailA ++ ']' :: rest)) =
          some (.arrCons hd tl, rest) := by
      intro hg f rest hf
      have hg' := hg
      simp only [jgood, Bool.and_eq_true] at hg'
      obtain ⟨⟨hghd, hspine⟩, hgtl⟩ := hg'
      match f, hf with
      | f' + 1, _ =>
        have hdel' : delimOk (tl.dumpsChars .tailA ++ ']' :: rest) := by
          cases tl with
          | arrNil => exact ⟨by decide, by decide, by decide, by decide⟩
          | arrCons h2 t2 => exact ⟨by decide, by decide, by decide, by decide⟩
          | null => simp [isArrSpineB] at hspine
          | bool b => simp [isArrSpineB] at hspine
          | num m => simp [isArrSpineB] at hspine
          | str s => simp [isArrSpineB] at hspine
          | objNil => simp [isArrSpineB] at hspine
          | objCons k v t => simp [isArrSpineB] at hspine
        simp only [parseArrItems,
          (ih_hd.1) hghd f' (tl.dumpsChars .tailA ++ ']' :: rest) (by omega) hdel']
        cases tl with
        | arrNil => rfl
        | arrCons h2 t2 =>
          have hta : ((Jval.arrCons h2 t2).dumpsChars .tailA ++ ']' :: rest
              : List Char) =
              ',' :: (h2.dumpsChars .top ++ (t2.dumpsChars .tailA ++ ']' :: rest)) := by
            simp [Jval.dumpsChars]
          have hlen : ((Jval.arrCons h2 t2).dumpsChars .tailA).length =
              1 + (h2.dumpsChars .top).length + (t2.dumpsChars .tailA).length := by
            simp [Jval.dumpsChars]
            omega
          simp only [hta, skipWs_cons_of_plain ','
            (h2.dumpsChars .top ++ (t2.dumpsChars .tailA ++ ']' :: rest)) (by decide)]
          simp only [ih_tl.2 h2 t2 rfl hgtl f' rest (by omega)]
        | null => simp [isArrSpineB] at hspine
        | bool b => simp [isArrSpineB] at hspine
        | num m => simp [isArrSpineB] at hspine
        | str s => simp [isArrSpineB] at hspine
        | objNil => simp [isArrSpineB] at hspine
        | objCons k v t => simp [isArrSpineB] at hspine
    constructor
    · intro hg f rest hf hdel
      have hg' := hg
      simp only [jgood, Bool.and_eq_true] at hg'
      obtain ⟨⟨hghd, hspine⟩, hgtl⟩ := hg'
      match f, hf with
      | f' + 1, _ =>
        rcases dumpsChars_top_cons hd hghd with ⟨c0, cs0, hshape, hplain0, hne0, -⟩
        have hinput : ((Jval.arrCons hd tl).dumpsChars .top ++ rest : List Char) =
            '[' :: (hd.dumpsChars .top ++ (tl.dumpsChars .tailA ++ ']' :: rest)) := by
          simp [Jval.dumpsChars]
        have hlen2 : ((Jval.arrCons hd tl).dumpsChars .top).length =
            2 + (hd.dumpsChars .top).length + (tl.dumpsChars .tailA).length := by
          simp [Jval.dumpsChars]
          omega
        rw [hinput]
        simp only [parseJval, skipWs_cons_of_plain '['
          (hd.dumpsChars .top ++ (tl.dumpsChars .tailA ++ ']' :: rest)) (by decide)]
        rw [if_neg (by decide), if_neg (by decide), if_neg (by decide),
          if_neg (by decide)]
        rw [if_true]
        have hsk : skipWs (hd.dumpsChars .top ++ (tl.dumpsChars .tailA ++ ']' :: rest)) =
            c0 :: (cs0 ++ (tl.dumpsChars .tailA ++ ']' :: rest)) := by
          rw [hshape, List.cons_append]
          exact skipWs_cons_of_plain c0 _ hplain0
        rw [hsk]
        split
        · next rest' heq =>
          exfalso
          injection heq with h1 _
          exact hne0 h1
        · rw [show (c0 :: (cs0 ++ (tl.dumpsChars .tailA ++ ']' :: rest)) : List Char) =
              hd.dumpsChars .top ++ (tl.dumpsChars .tailA ++ ']' :: rest) from by
            rw [hshape, List.cons_append]]
          exact hQ hg f' rest (by omega)
    · intro hd' tl' heq hg f rest hf
      injection heq with h1 h2
      subst h1
      subst h2
      exact hQ hg f rest hf

/-! ## Decoding a rendered value, and per-value round-trip -/

theorem jsonDecode_dumps (j : Jval) (hg : jgood j = true) :
    jsonDecode (Jval.dumps j) = some j := by
  have h := (parse_dumps_roundtrip j).1 hg ((j.dumpsChars .top).length + 1) []
    (le_refl _) trivial
  rw [List.append_nil] at h
  have hlen : (String.mk (j.dumpsChars .top)).length = (j.dumpsChars .top).length := rfl
  have htl : (String.mk (j.dumpsChars .top)).toList = j.dumpsChars .top := rfl
  simp only [jsonDecode, Jval.dumps, hlen, htl, h]
  rfl

theorem pyLower_toList (s : String) :
    (pyLower s).toList = s.toList.map Char.toLower := rfl

theorem pyLower_ne_of_head (s : String) (c : Char) (tl : List Char)
    (hs : s.toList = c :: tl) (lit : String) (d : Char) (dtl : List Char)
    (hlit : lit.toList = d :: dtl) (hne : Char.toLower c ≠ d) : pyLower s ≠ lit := by
  intro he
  have h1 : (pyLower s).toList = lit.toList := by rw [he]
  rw [pyLower_toList, hs, hlit, List.map_cons] at h1
  injection h1 with h2 _
  exact hne h2

theorem isPyDigit_false_of_head (s : String) (c : Char) (tl : List Char)
    (hs : s.toList = c :: tl) (hc : isDigitChar c = false) : isPyDigit s = false := by
  have hd' : s.data = c :: tl := hs
  simp [isPyDigit, hd', hc]

theorem replaceSingleQuotes_noop (s : String) (h : ∀ c ∈ s.toList, c ≠ '\'') :
    replaceSingleQuotes s = s := by
  have hmap : s.toList.map (fun c => if c = '\'' then '"' else c) = s.toList := by
    have : ∀ c ∈ s.toList, (fun c => if c = '\'' then '"' else c) c = id c := by
      intro c hc
      simp [h c hc]
    calc s.toList.map (fun c => if c = '\'' then '"' else c)
        = s.toList.map id := List.map_congr_left this
      _ = s.toList := List.map_id _
  show String.mk (s.toList.map fun c => if c = '\'' then '"' else c) = s
  rw [hmap]
  rfl

theorem plain_no_quote (l : List Char) (h : l.all plainChar = true) :
    ∀ c ∈ l, c ≠ '\'' := by
  intro c hc he
  have := List.all_eq_true.mp h c hc
  subst he
  simp [plainChar] at this

theorem plain_no_dquote (l : List Char) (h : l.all plainChar = true) : '"' ∉ l := by
  intro hm
  have := List.all_eq_true.mp h '"' hm
  simp [plainChar] at this

theorem pyStartsWith_cons (s : String) (c : Char) (tl : List Char)
    (hs : s.toList = c :: tl) (p : String) (hp : p.toList = [c]) :
    pyStartsWith s p = true := by
  have hd1 : p.data = [c] := hp
  have hd2 : s.data = c :: tl := hs
  simp only [pyStartsWith, List.isPrefixOf_iff_prefix]
  rw [show p.toList = [c] from hd1, show s.toList = c :: tl from hd2]
  exact ⟨tl, rfl⟩

theorem pyEndsWith_append (s : String) (X : List Char) (c : Char)
    (hs : s.toList = X ++ [c]) (p : String) (hp : p.toList = [c]) :
    pyEndsWith s p = true := by
  simp only [pyEndsWith, List.isPrefixOf_iff_prefix]
  rw [show p.toList = [c] from hp, show s.toList = X ++ [c] from hs]
  simp

/-- The value of `coerceValue` on a rendered array/object chain. -/
theorem coerce_dumps (j : Jval) (hg : jgood j = true)
    (hshape : isArrSpineB j = true ∨ j = .objNil) :
    coerceValue (Jval.dumps j) = .json j := by
  have hplainL : (j.dumpsChars .top).all plainChar = true := dumpsChars_plain j hg .top
  have hplainS : (Jval.dumps j).toList.all plainChar = true := hplainL
  have hrepl : replaceSingleQuotes (Jval.dumps j) = Jval.dumps j :=
    replaceSingleQuotes_noop _ (plain_no_quote _ hplainS)
  have hdec : jsonDecode (replaceSingleQuotes (Jval.dumps j)) = some j := by
    rw [hrepl]
    exact jsonDecode_dumps j hg
  cases j with
  | arrNil => rfl
  | objNil => rfl
  | arrCons hd tl =>
    have hs : (Jval.dumps (Jval.arrCons hd tl)).toList =
        '[' :: ((hd.dumpsChars .top ++ tl.dumpsChars .tailA) ++ [']']) := rfl
    have hT := pyLower_ne_of_head _ '[' _ hs "true" 't' _ rfl (by decide)
    have hF := pyLower_ne_of_head _ '[' _ hs "false" 'f' _ rfl (by decide)
    have hD := isPyDigit_false_of_head _ '[' _ hs (by decide)
    have hSW := pyStartsWith_cons _ '[' _ hs "[" rfl
    have hEW := pyEndsWith_append _
      ('[' :: (hd.dumpsChars .top ++ tl.dumpsChars .tailA)) ']'
      (by rw [hs]; rfl) "]" rfl
    simp [coerceValue, hT, hF, hD, hSW, hEW, hdec]
  | null => simp [isArrSpineB] at hshape
  | bool b => simp [isArrSpineB] at hshape
  | num m => simp [isArrSpineB] at hshape
  | str s => simp [jgood] at hg
  | objCons k v t => simp [jgood] at hg

/-- A decoded bracketed quote-free input is an array chain or the empty
object. -/
theorem decode_bracket_shape (cs : List Char) (f : Nat) (j : Jval) (rest : List Char)
    (hq : '"' ∉ cs) (tl0 : List Char) (hhead : cs = '[' :: tl0 ∨ cs = '\x7b' :: tl0)
    (hP : parseJval f cs = some (j, rest)) :
    isArrSpineB j = true ∨ j = .objNil := by
  match f with
  | 0 => simp [parseJval] at hP
  | g + 1 =>
    rcases hhead with hcs | hcs <;> subst hcs
    · have hqtl : '"' ∉ skipWs tl0 := by
        have h1 : '"' ∉ tl0 := fun hm => hq (by simp [hm])
        exact not_mem_of_suffix h1 (skipWs_suffix tl0)
      simp only [parseJval,
        skipWs_cons_of_plain '[' tl0 (by decide)] at hP
      rw [if_neg (by decide), if_neg (by decide), if_neg (by decide),
        if_neg (by decide)] at hP
      rw [if_true] at hP
      split at hP
      · rcases Option.some.inj hP with h'
        injection h' with hj _
        subst hj
        exact Or.inl rfl
      · left
        exact ((parse_quotefree g).2.1 _ _ _ hqtl hP).2.1
    · have hqtl : '"' ∉ skipWs tl0 := by
        have h1 : '"' ∉ tl0 := fun hm => hq (by simp [hm])
        exact not_mem_of_suffix h1 (skipWs_suffix tl0)
      simp only [parseJval,
        skipWs_cons_of_plain '\x7b' tl0 (by decide)] at hP
      rw [if_neg (by decide), if_neg (by decide), if_neg (by decide),
        if_neg (by decide), if_neg (by decide)] at hP
      rw [if_true] at hP
      split at hP
      · rcases Option.some.inj hP with h'
        injection h' with hj _
        subst hj
        exact Or.inr rfl
      · exact absurd hP (fun hc => (parse_quotefree g).2.2 _ _ _ hqtl hc)

/-- Per-argument round-trip: re-coercing the canonical rendering of a
coerced plain value gives the same value back, and the rendering is
itself plain. -/
theorem coerce_serialize_roundtrip (v0 : String)
    (hp : v0.toList.all plainChar = true) :
    coerceValue (serializeValue (coerceValue v0)) = coerceValue v0
    ∧ (serializeValue (coerceValue v0)).toList.all plainChar = true := by
  by_cases hT : pyLower v0 = "true"
  · have hc : coerceValue v0 = .bool true := by simp [coerceValue, hT]
    rw [hc]
    exact ⟨by rfl, by decide⟩
  · by_cases hF : pyLower v0 = "false"
    · have hc : coerceValue v0 = .bool false := by simp [coerceValue, hT, hF]
      rw [hc]
      exact ⟨by rfl, by decide⟩
    · by_cases hD : isPyDigit v0 = true
      · have hc : coerceValue v0 = .int (strToNat v0) := by
          simp [coerceValue, hT, hF, hD]
        rw [hc]
        constructor
        · show coerceValue (natRepr (strToNat v0)) = Value.int (strToNat v0)
          have h1 := isPyDigit_natRepr (strToNat v0)
          rcases natDigits_spec (strToNat v0) with ⟨hne, hdig, -, -⟩
          have ht : (natRepr (strToNat v0)).toList = natDigits (strToNat v0) := rfl
          rcases digits_ne_bool_literal (natRepr (strToNat v0))
            (by rw [ht]; exact hne) (by rw [ht]; exact hdig) with ⟨hnT, hnF⟩
          simp [coerceValue, hnT, hnF, h1, strToNat_natRepr]
        · show (natRepr (strToNat v0)).toList.all plainChar = true
          rcases natDigits_spec (strToNat v0) with ⟨-, hdig, -, -⟩
          exact all_plain_of_digits _ hdig
      · by_cases hB : ((pyStartsWith v0 "[" && pyEndsWith v0 "]")
            || (pyStartsWith v0 "\x7b" && pyEndsWith v0 "\x7d")) = true
        · cases hdec : jsonDecode (replaceSingleQuotes v0) with
          | none =>
            have hc : coerceValue v0 = .str v0 := by
              simp [coerceValue, hT, hF, hD, hB, hdec]
            rw [hc]
            exact ⟨hc, hp⟩
          | some j =>
            have hc : coerceValue v0 = .json j := by
              simp [coerceValue, hT, hF, hD, hB, hdec]
            have hrepl : replaceSingleQuotes v0 = v0 :=
              replaceSingleQuotes_noop _ (plain_no_quote _ hp)
            rw [hrepl] at hdec
            have hq : '"' ∉ v0.toList := plain_no_dquote _ hp
            have hP : ∃ rest, parseJval (v0.length + 1) v0.toList = some (j, rest) := by
              unfold jsonDecode at hdec
              split at hdec
              · next v rest heq =>
                split at hdec
                · rcases Option.some.inj hdec with h'
                  subst h'
                  exact ⟨rest, heq⟩
                · simp at hdec
              · simp at hdec
            rcases hP with ⟨rest, hP⟩
            have hg : jgood j = true := ((parse_quotefree _).1 _ _ _ hq hP).1
            have hhead : ∃ tl0, v0.toList = '[' :: tl0 ∨ v0.toList = '\x7b' :: tl0 := by
              rcases Bool.or_eq_true .. |>.mp hB with h1 | h1
              · obtain ⟨hsw, -⟩ := Bool.and_eq_true .. |>.mp h1
                simp only [pyStartsWith] at hsw
                cases hv : v0.toList with
                | nil => rw [hv] at hsw; simp [List.isPrefixOf] at hsw
                | cons c ctl =>
                  rw [hv] at hsw
                  have : c = '[' := by
                    simp [List.isPrefixOf] at hsw
                    exact hsw.symm
                  exact ⟨ctl, Or.inl (by rw [this])⟩
              · obtain ⟨hsw, -⟩ := Bool.and_eq_true .. |>.mp h1
                simp only [pyStartsWith] at hsw
                cases hv : v0.toList with
                | nil => rw [hv] at hsw; simp [List.isPrefixOf] at hsw
                | cons c ctl =>
                  rw [hv] at hsw
                  have : c = '\x7b' := by
                    simp [List.isPrefixOf] at hsw
                    exact hsw.symm
                  exact ⟨ctl, Or.inr (by rw [this])⟩
            rcases hhead with ⟨tl0, hhead⟩
            have hshape := decode_bracket_shape v0.toList (v0.length + 1) j rest
              hq tl0 hhead hP
            rw [hc]
            exact ⟨coerce_dumps j hg hshape, dumpsChars_plain j hg .top⟩
        · have hc : coerceValue v0 = .str v0 := by
            simp [coerceValue, hT, hF, hD, hB]
          rw [hc]
          exact ⟨hc, hp⟩

/-- The argument fold of `parseCommand` keeps the key list `Nodup` and
every entry `goodEntry` when every token is a well-formed `key=value`. -/
theorem parse_fold_invariant (toks : List String)
    (h : ∀ t ∈ toks, wfArgToken t = true) :
    ∀ acc : List (String × Value),
      (acc.map Prod.fst).Nodup → (∀ kv ∈ acc, goodEntry kv) →
      ((toks.foldl (fun acc arg =>
          match splitArgToken arg with
          | some (k, v) => dictInsert acc k (coerceValue v)
          | none => acc) acc).map Prod.fst).Nodup ∧
      (∀ kv ∈ toks.foldl (fun acc arg =>
          match splitArgToken arg with
          | some (k, v) => dictInsert acc k (coerceValue v)
          | none => acc) acc, goodEntry kv) := by
  induction toks with
  | nil => intro acc h1 h2; exact ⟨h1, h2⟩
  | cons t rest ih =>
    intro acc h1 h2
    have hwf : wfArgToken t = true := h t (by simp)
    simp only [wfArgToken, Bool.and_eq_true] at hwf
    have hwt := hwf.1
    have hmem : '=' ∈ t.toList := by
      have := hwf.2
      simpa using this
    simp only [wfToken, Bool.and_eq_true] at hwt
    have hplain : t.toList.all plainChar = true := hwt.2
    obtain ⟨kl, vl, heq, hkl, hsplit⟩ := splitArgToken_of_mem_eq t hmem
    have hall : kl.all plainChar = true ∧ plainChar '=' = true
        ∧ vl.all plainChar = true := by
      have h' := hplain
      rw [heq] at h'
      simpa [List.all_append, Bool.and_eq_true] using h'
    simp only [List.foldl_cons, hsplit]
    refine ih (fun t' ht' => h t' (List.mem_cons_of_mem _ ht')) _ ?_ ?_
    · exact dictInsert_keys_nodup _ _ _ h1
    · intro kv hkv
      rcases dictInsert_mem _ _ _ kv hkv with hin | hnew
      · exact h2 kv hin
      · subst hnew
        refine ⟨hall.1, ?_, String.mk vl, hall.2.2, rfl⟩
        intro c hc
        exact hkl c hc

/-- C8: for every well-formed list of `key=value` tokens with no quoting,
parsing the space-joined command string succeeds with the first token as
the tool, and serializing the parsed command to its canonical string form
and re-parsing yields the same parse outcome (idempotence of parse
composed with serialization). -/
theorem claim_C8_parse_serialize_roundtrip (tool : String) (argToks : List String)
    (input : String)
    (hinput : input = String.mk (joinChars ((tool :: argToks).map String.toList)))
    (htool : wfToken tool = true)
    (hargs : ∀ t ∈ argToks, wfArgToken t = true) :
    (parseCommand input).tool = some tool ∧
    parseCommand (serializeCommand tool (parseCommand input).args)
      = parseCommand input := by
  have hwfall : ∀ t ∈ tool :: argToks, wfToken t = true := by
    intro t ht
    rcases List.mem_cons.mp ht with h1 | h1
    · exact h1 ▸ htool
    · have := hargs t h1
      simp only [wfArgToken, Bool.and_eq_true] at this
      exact this.1
  have hsplit1 : shlexSplit input = .ok (tool :: argToks) := by
    rw [hinput]
    exact shlexSplit_join _ hwfall
  set A := argToks.foldl (fun acc arg =>
    match splitArgToken arg with
    | some (k, v) => dictInsert acc k (coerceValue v)
    | none => acc) [] with hA
  have hparse1 : parseCommand input = ⟨some tool, A, false⟩ := by
    simp only [parseCommand, hsplit1]
  obtain ⟨hndA, hgoodA⟩ := parse_fold_invariant argToks hargs [] (by simp) (by simp)
  rw [← hA] at hndA hgoodA
  have hserEq : serializeCommand tool A =
      String.mk (joinChars ((tool :: A.map (fun kv =>
        String.mk (kv.1.toList ++ '=' :: (serializeValue kv.2).toList))).map
          String.toList)) := by
    simp only [serializeCommand, List.map_cons, List.map_map]
    have hcomp : (String.toList ∘ fun kv : String × Value =>
        String.mk (kv.1.toList ++ '=' :: (serializeValue kv.2).toList))
        = fun kv : String × Value =>
            kv.1.toList ++ '=' :: (serializeValue kv.2).toList := by
      funext kv
      rfl
    rw [hcomp]
  have hwfser : ∀ t ∈ tool :: A.map (fun kv =>
      String.mk (kv.1.toList ++ '=' :: (serializeValue kv.2).toList)),
      wfToken t = true := by
    intro t ht
    rcases List.mem_cons.mp ht with h1 | h1
    · exact h1 ▸ htool
    · obtain ⟨kv, hkv, rfl⟩ := List.mem_map.mp h1
      obtain ⟨hkp, hkne, v0, hv0p, hval⟩ := hgoodA kv hkv
      have hvp : (serializeValue kv.2).toList.all plainChar = true := by
        rw [hval]
        exact (coerce_serialize_roundtrip v0 hv0p).2
      have hpe : plainChar '=' = true := by decide
      simp [wfToken, List.all_append, hkp, hvp, hpe]
      exact ⟨List.all_eq_true.mp hkp, List.all_eq_true.mp hvp⟩
  have hsplit2 : shlexSplit (serializeCommand tool A) =
      .ok (tool :: A.map (fun kv =>
        String.mk (kv.1.toList ++ '=' :: (serializeValue kv.2).toList))) := by
    rw [hserEq]
    exact shlexSplit_join _ hwfser
  have hparse2 : parseCommand (serializeCommand tool A) =
      ⟨some tool,
       (A.map (fun kv =>
          String.mk (kv.1.toList ++ '=' :: (serializeValue kv.2).toList))).foldl
         (fun acc arg =>
           match splitArgToken arg with
           | some (k, v) => dictInsert acc k (coerceValue v)
           | none => acc) [], false⟩ := by
    simp only [parseCommand, hsplit2]
  have hstep : ∀ (d : List (String × Value)) (kv : String × Value), goodEntry kv →
      (match splitArgToken (String.mk
          (kv.1.toList ++ '=' :: (serializeValue kv.2).toList)) with
       | some (k, v) => dictInsert d k (coerceValue v)
       | none => d) = dictInsert d kv.1 kv.2 := by
    intro d kv hg
    obtain ⟨hkp, hkne, v0, hv0p, hval⟩ := hg
    have hsp : splitArgToken (String.mk
        (kv.1.toList ++ '=' :: (serializeValue kv.2).toList))
        = some (String.mk kv.1.toList, String.mk (serializeValue kv.2).toList) := by
      show splitArgToken.go []
        (kv.1.toList ++ '=' :: (serializeValue kv.2).toList) = _
      rw [splitArgToken_go_spec kv.1.toList hkne (serializeValue kv.2).toList []]
      simp
    have hcv : coerceValue (serializeValue kv.2) = kv.2 := by
      rw [hval]
      exact (coerce_serialize_roundtrip v0 hv0p).1
    simp only [hsp]
    show dictInsert d kv.1 (coerceValue (serializeValue kv.2)) = dictInsert d kv.1 kv.2
    rw [hcv]
  have hmapfold : ∀ (l : List (String × Value)), (∀ kv ∈ l, goodEntry kv) →
      ∀ acc : List (String × Value),
      (l.map (fun kv =>
          String.mk (kv.1.toList ++ '=' :: (serializeValue kv.2).toList))).foldl
        (fun acc arg =>
          match splitArgToken arg with
          | some (k, v) => dictInsert acc k (coerceValue v)
          | none => acc) acc
      = l.foldl (fun d kv => dictInsert d kv.1 kv.2) acc := by
    intro l
    induction l with
    | nil => intro _ acc; rfl
    | cons kv tl ih =>
      intro hgl acc
      simp only [List.map_cons, List.foldl_cons]
      rw [hstep acc kv (hgl kv (by simp))]
      exact ih (fun kv' h' => hgl kv' (List.mem_cons_of_mem _ h')) _
  have hfold2 : (A.map (fun kv =>
      String.mk (kv.1.toList ++ '=' :: (serializeValue kv.2).toList))).foldl
        (fun acc arg =>
          match splitArgToken arg with
          | some (k, v) => dictInsert acc k (coerceValue v)
          | none => acc) [] = A := by
    rw [hmapfold A hgoodA []]
    have := foldl_dictInsert_id A [] (by simpa using hndA)
    simpa using this
  refine ⟨?_, ?_⟩
  · rw [hparse1]
  · rw [hparse1]
    show parseCommand (serializeCommand tool A) = (⟨some tool, A, false⟩ : ParseOutcome)
    rw [hparse2, hfold2]

/-- Witness for C8 at the concrete command `foo a=1 b=true c=[1,2]`. -/
theorem claim_C8_parse_serialize_roundtrip_witness :
    wfToken "foo" = true ∧
    (∀ t ∈ (["a=1", "b=true", "c=[1,2]"] : List String), wfArgToken t = true) ∧
    ((parseCommand "foo a=1 b=true c=[1,2]").tool = some "foo" ∧
     parseCommand (serializeCommand "foo"
         (parseCommand "foo a=1 b=true c=[1,2]").args)
       = parseCommand "foo a=1 b=true c=[1,2]") :=
  ⟨by decide, by decide,
   claim_C8_parse_serialize_roundtrip "foo" ["a=1", "b=true", "c=[1,2]"]
     "foo a=1 b=true c=[1,2]" (by decide) (by decide) (by decide)⟩

end MCP
